import Mathlib

/-!
Verification development for `bg_generator.py` ("Bulk BG Document Generator").

The Python source is embedded shallowly:
* the segmenter `parse_bgs_from_file` (regex heuristics modelled as executable
  functions over `List Char`, following Python `re` semantics for the three
  concrete patterns the source uses);
* the fingerprint `get_bg_hash` (a full executable MD5 over the UTF-8 bytes,
  as `hashlib.md5(text.encode()).hexdigest()`);
* the incremental tracker (`load_processed_bgs`, `save_processed_bgs`, and the
  classification / rendering / commit loop of `generate_bg_documents`).

Rendering of the .docx document itself (`create_word_document`) is an external
collaborator; it is modelled as a success/failure oracle passed to the
pipeline, matching the `try/except` structure of the source.
-/

namespace BG

/-! ## Python character classes and `str.strip` -/

/-- Python `\s` / `str.isspace` for the character range this program handles
(the ASCII whitespace characters). -/
def pyIsSpace (c : Char) : Bool :=
  c = ' ' || c = '\t' || c = '\n' || c = '\r' || c = '\x0b' || c = '\x0c'

/-- Python `\d` (ASCII decimal digits). -/
def pyIsDigit (c : Char) : Bool :=
  '0' ≤ c && c ≤ '9'

/-- Python `str.strip()`: remove leading and trailing whitespace. -/
def pyStrip (cs : List Char) : List Char :=
  ((cs.dropWhile pyIsSpace).reverse.dropWhile pyIsSpace).reverse

/-! ## First heuristic: `re.search(r'---+', content)` / `re.split(r'---+', content)` -/

/-- Drop a leading run of dashes. -/
def dropDashes (cs : List Char) : List Char :=
  cs.dropWhile (fun c => c = '-')


/-- `re.split(r'---+', content)`: split on every maximal run of three or more
dashes (the pattern is greedy, so each match consumes a whole dash run).
Structural recursion on an explicit step budget (`fuel`), so that the kernel
can evaluate the function; every step consumes at least one character, so any
budget larger than the text length is exact. -/
def dashSplitAux : Nat → List Char → List Char → List (List Char)
  | 0, _, cur => [cur.reverse]
  | fuel + 1, '-' :: '-' :: '-' :: rest, cur =>
      cur.reverse :: dashSplitAux fuel (dropDashes rest) []
  | fuel + 1, c :: rest, cur => dashSplitAux fuel rest (c :: cur)
  | _ + 1, [], cur => [cur.reverse]

def dashSplit (cs : List Char) : List (List Char) := dashSplitAux (cs.length + 1) cs []

/-! ## Second heuristic:
`re.findall(r'^\d+\.\s+(.+?)(?=^\d+\.|$)', content, re.MULTILINE | re.DOTALL)`

The pattern is modelled positionally.  With `MULTILINE`, `^` matches at
position 0 and right after every newline, and `$` matches at the end of the
text and right before every newline.  With `DOTALL`, `.` also matches
newlines, so the lazy `(.+?)` stops at the first position (at least one
character along) where the lookahead `(?=^\d+\.|$)` holds.  The greedy `\d+`
is forced to the whole digit run (the next literal is `.`), and the greedy
`\s+` backtracks at most one character, which happens exactly when it would
otherwise consume the rest of the text and leave nothing for `(.+?)`. -/

/-- Character at index `i` (out-of-range reads yield `' '`, which none of the
guards below accept, so the default never changes a decision). -/
def charAt (cs : List Char) (i : Nat) : Char := cs.getD i ' '

/-- `re.search(r'---+', content)`: the text contains three consecutive
dashes somewhere. -/
def hasDashRun (cs : List Char) : Bool :=
  (List.range cs.length).any (fun p =>
    charAt cs p = '-' && charAt cs (p + 1) = '-' && charAt cs (p + 2) = '-')

/-- Length of the maximal run of characters satisfying `P` starting at `p`. -/
def runLen (P : Char → Bool) (cs : List Char) (p : Nat) : Nat :=
  ((cs.drop p).takeWhile P).length

/-- `^` under `re.MULTILINE`: position 0 or just after a newline. -/
def lineStart (cs : List Char) (p : Nat) : Bool :=
  p = 0 || charAt cs (p - 1) = '\n'

/-- `^\d+\.` viewed as a test at position `q` (used inside the lookahead). -/
def markerAt (cs : List Char) (q : Nat) : Bool :=
  lineStart cs q && 0 < runLen pyIsDigit cs q
    && charAt cs (q + runLen pyIsDigit cs q) = '.'

/-- The lookahead `(?=^\d+\.|$)` at position `q` (with `$` under `MULTILINE`:
end of text or just before a newline). -/
def lookaheadOk (cs : List Char) (q : Nat) : Bool :=
  cs.length ≤ q || charAt cs q = '\n' || markerAt cs q

/-- First position `≥ q` where the lookahead holds (the lazy `(.+?)` stops
there; position `cs.length` always qualifies).  Fuel-structured; callers pass
a budget of at least `cs.length + 1`, which always suffices. -/
def findQ (cs : List Char) : Nat → Nat → Nat
  | 0, _ => cs.length
  | fuel + 1, q =>
      if cs.length ≤ q then cs.length
      else if lookaheadOk cs q then q else findQ cs fuel (q + 1)

def sliceChars (cs : List Char) (a b : Nat) : List Char :=
  (cs.drop a).take (b - a)

/-- A single successful match of the clause pattern: the text captured by
`(.+?)` and the position where the regex engine resumes scanning. -/
structure RegexMatch where
  capture : List Char
  stop : Nat
  deriving Repr, DecidableEq

/-- The digit-run length of a tentative match at `p` (what `\d+` consumes). -/
def msD (cs : List Char) (p : Nat) : Nat := runLen pyIsDigit cs p

/-- Position right after the literal `.` of a tentative match at `p`. -/
def msS (cs : List Char) (p : Nat) : Nat := p + msD cs p + 1

/-- The maximal whitespace-run length available to `\s+`. -/
def msW (cs : List Char) (p : Nat) : Nat := runLen pyIsSpace cs (msS cs p)

/-- What `\s+` actually consumes: the whole run, except that it gives one
character back when the run reaches the end of the text (so that `(.+?)` can
still consume at least one character). -/
def msM (cs : List Char) (p : Nat) : Nat :=
  if msS cs p + msW cs p < cs.length then msW cs p else msW cs p - 1

/-- Start position of the capture group `(.+?)`. -/
def msC0 (cs : List Char) (p : Nat) : Nat := msS cs p + msM cs p

/-- End position of the capture group (and of the whole match, since the
lookahead is zero-width). -/
def msStop (cs : List Char) (p : Nat) : Nat := findQ cs (cs.length + 1) (msC0 cs p + 1)

/-- Attempt the clause pattern at position `p`. -/
def matchAt (cs : List Char) (p : Nat) : Option RegexMatch :=
  if !lineStart cs p then none
  else if msD cs p = 0 then none
  else if !(charAt cs (p + msD cs p) = '.') then none
  else if msW cs p = 0 then none
  else if msM cs p = 0 then none
  else some ⟨sliceChars cs (msC0 cs p) (msStop cs p), msStop cs p⟩








/-- `re.findall` scanning loop: try every position; on a match, emit the
capture and resume at the match end.  Fuel-structured: the scan position
strictly increases every step, so a budget of `cs.length + 1` is exact. -/
def findallAux (cs : List Char) : Nat → Nat → List (List Char)
  | 0, _ => []
  | fuel + 1, p =>
      if cs.length ≤ p then []
      else
        match matchAt cs p with
        | some r => r.capture :: findallAux cs fuel r.stop
        | none => findallAux cs fuel (p + 1)

def numberedFindall (cs : List Char) : List (List Char) :=
  findallAux cs (cs.length + 1) 0

/-! ## Fallback: `re.split(r'\n\s*\n+', content)`

Greedy `\s*` backtracks to the last newline inside the whitespace run that
follows the opening `\n`, after which the greedy `\n+` can only take that one
newline (any further newline would still be part of the whitespace run). -/

/-- Offset (within `W` characters after position `p`) of the last newline of
the whitespace run following the opening newline, if any. -/
def lastNlOffset (cs : List Char) (p W : Nat) : Option Nat :=
  ((List.range W).filter (fun t => charAt cs (p + 1 + t) = '\n')).getLast?

/-- A separator match of `\n\s*\n+` starting at `p`: returns the position
just past the match. -/
def blankMatch (cs : List Char) (p : Nat) : Option Nat :=
  if charAt cs p = '\n' then
    match lastNlOffset cs p (runLen pyIsSpace cs (p + 1)) with
    | some t => some (p + t + 2)
    | none => none
  else none


/-- `re.split` scanning loop: `start` is the beginning of the current piece.
Fuel-structured like `findallAux`. -/
def blankSplitAux (cs : List Char) : Nat → Nat → Nat → List (List Char)
  | 0, start, _ => [sliceChars cs start cs.length]
  | fuel + 1, start, p =>
      if cs.length ≤ p then [sliceChars cs start cs.length]
      else
        match blankMatch cs p with
        | some e => sliceChars cs start p :: blankSplitAux cs fuel e e
        | none => blankSplitAux cs fuel start (p + 1)

def blankSplit (cs : List Char) : List (List Char) :=
  blankSplitAux cs (cs.length + 1) 0 0

/-! ## The segmenter `parse_bgs_from_file`

The source reads the file and then applies the three heuristics in order;
the embedding takes the file content directly.  The `SegFormat` tag records
which of the four status messages the source prints. -/

inductive SegFormat where
  | dash
  | numbered
  | blankMany
  | blankWarn
  deriving Repr, DecidableEq

/-- `bgs = re.split(r'---+', content)` followed by
`bgs = [bg.strip() for bg in bgs if bg.strip()]`. -/
def dashPieces (cs : List Char) : List (List Char) :=
  ((dashSplit cs).map pyStrip).filter (fun bg => bg ≠ [])

/-- The stripped, non-empty pieces of the blank-line fallback split. -/
def blankPieces (cs : List Char) : List (List Char) :=
  ((blankSplit cs).map pyStrip).filter (fun bg => bg ≠ [])

/-- The second and third heuristics (reached when there is no dash run, or
when dash splitting left at most one non-empty piece). -/
def afterDashPhase (cs : List Char) : List String × SegFormat :=
  if 1 < (numberedFindall cs).length then
    ((((numberedFindall cs).map pyStrip).map List.asString), SegFormat.numbered)
  else
    (((blankPieces cs).map List.asString),
      if 1 < (blankPieces cs).length then SegFormat.blankMany else SegFormat.blankWarn)

/-- `parse_bgs_from_file`, together with the detection status it reports. -/
def parse_bgs_tagged (content : String) : List String × SegFormat :=
  if hasDashRun content.data then
    if 1 < (dashPieces content.data).length then
      ((dashPieces content.data).map List.asString, SegFormat.dash)
    else afterDashPhase content.data
  else afterDashPhase content.data

/-- The record sequence produced by `parse_bgs_from_file`. -/
def parse_bgs_from_file (content : String) : List String :=
  (parse_bgs_tagged content).1

/-! ## `get_bg_hash`: `hashlib.md5(bg_text.encode()).hexdigest()`

A complete executable MD5 (RFC 1321) over the UTF-8 bytes of the record. -/

def M32 : Nat := 4294967296

def add32 (a b : Nat) : Nat := (a + b) % M32

def rotl32 (x s : Nat) : Nat := ((x <<< s) ||| (x >>> (32 - s))) % M32

def not32 (x : Nat) : Nat := x ^^^ 4294967295

/-- The 64 sine-derived round constants `K[i] = floor(|sin(i+1)| * 2^32)`. -/
def mdK : List Nat :=
  [0xd76aa478, 0xe8c7b756, 0x242070db, 0xc1bdceee, 0xf57c0faf, 0x4787c62a, 0xa8304613, 0xfd469501,
   0x698098d8, 0x8b44f7af, 0xffff5bb1, 0x895cd7be, 0x6b901122, 0xfd987193, 0xa679438e, 0x49b40821,
   0xf61e2562, 0xc040b340, 0x265e5a51, 0xe9b6c7aa, 0xd62f105d, 0x02441453, 0xd8a1e681, 0xe7d3fbc8,
   0x21e1cde6, 0xc33707d6, 0xf4d50d87, 0x455a14ed, 0xa9e3e905, 0xfcefa3f8, 0x676f02d9, 0x8d2a4c8a,
   0xfffa3942, 0x8771f681, 0x6d9d6122, 0xfde5380c, 0xa4beea44, 0x4bdecfa9, 0xf6bb4b60, 0xbebfbc70,
   0x289b7ec6, 0xeaa127fa, 0xd4ef3085, 0x04881d05, 0xd9d4d039, 0xe6db99e5, 0x1fa27cf8, 0xc4ac5665,
   0xf4292244, 0x432aff97, 0xab9423a7, 0xfc93a039, 0x655b59c3, 0x8f0ccc92, 0xffeff47d, 0x85845dd1,
   0x6fa87e4f, 0xfe2ce6e0, 0xa3014314, 0x4e0811a1, 0xf7537e82, 0xbd3af235, 0x2ad7d2bb, 0xeb86d391]

/-- The per-round left-rotation amounts. -/
def mdS : List Nat :=
  [7, 12, 17, 22, 7, 12, 17, 22, 7, 12, 17, 22, 7, 12, 17, 22,
   5, 9, 14, 20, 5, 9, 14, 20, 5, 9, 14, 20, 5, 9, 14, 20,
   4, 11, 16, 23, 4, 11, 16, 23, 4, 11, 16, 23, 4, 11, 16, 23,
   6, 10, 15, 21, 6, 10, 15, 21, 6, 10, 15, 21, 6, 10, 15, 21]

/-- One of the 64 MD5 operations, on the running registers `A B C D` and the
16 message words `M` of the current block. -/
def md5Step (M : List Nat) (i A B C D : Nat) : Nat × Nat × Nat × Nat :=
  let fg : Nat × Nat :=
    if i < 16 then ((B &&& C) ||| (not32 B &&& D), i)
    else if i < 32 then ((D &&& B) ||| (not32 D &&& C), (5 * i + 1) % 16)
    else if i < 48 then (B ^^^ C ^^^ D, (3 * i + 5) % 16)
    else (C ^^^ (B ||| not32 D), (7 * i) % 16)
  let F := (fg.1 + A + mdK.getD i 0 + M.getD fg.2 0) % M32
  (D, add32 B (rotl32 F (mdS.getD i 0)), B, C)

def md5Rounds (M : List Nat) (st : Nat × Nat × Nat × Nat) : Nat × Nat × Nat × Nat :=
  (List.range 64).foldl (fun t i => md5Step M i t.1 t.2.1 t.2.2.1 t.2.2.2) st

/-- Process one 512-bit block (given as 16 little-endian 32-bit words). -/
def md5Block (st : Nat × Nat × Nat × Nat) (M : List Nat) : Nat × Nat × Nat × Nat :=
  let r := md5Rounds M st
  (add32 st.1 r.1, add32 st.2.1 r.2.1, add32 st.2.2.1 r.2.2.1, add32 st.2.2.2 r.2.2.2)

/-- `k` little-endian base-256 digits of `n`. -/
def leBytes (k n : Nat) : List Nat :=
  match k with
  | 0 => []
  | k + 1 => n % 256 :: leBytes k (n / 256)

/-- Group bytes into little-endian 32-bit words. -/
def wordsOfBytes : List Nat → List Nat
  | b0 :: b1 :: b2 :: b3 :: rest =>
      (b0 + 256 * b1 + 65536 * b2 + 16777216 * b3) :: wordsOfBytes rest
  | _ => []

/-- Split a byte list into 64-byte blocks (fuel-structured; each step
consumes 64 bytes, so a budget of the list length always suffices). -/
def chunks64Aux : Nat → List Nat → List (List Nat)
  | 0, _ => []
  | _ + 1, [] => []
  | fuel + 1, b :: bs => ((b :: bs).take 64) :: chunks64Aux fuel ((b :: bs).drop 64)

def chunks64 (bs : List Nat) : List (List Nat) := chunks64Aux bs.length bs

/-- MD5 padding: `0x80`, zeros to 56 mod 64, then the 64-bit little-endian
bit length. -/
def md5Pad (msg : List Nat) : List Nat :=
  msg ++ [128] ++ List.replicate ((119 - msg.length % 64) % 64) 0
      ++ leBytes 8 ((8 * msg.length) % (2 ^ 64))

/-- The four final MD5 registers for a byte message. -/
def md5State (msg : List Nat) : Nat × Nat × Nat × Nat :=
  (chunks64 (md5Pad msg)).foldl (fun st blk => md5Block st (wordsOfBytes blk))
    (0x67452301, 0xefcdab89, 0x98badcfe, 0x10325476)

def hexDigitChar (n : Nat) : Char :=
  if n < 10 then Char.ofNat (48 + n) else Char.ofNat (87 + n)

def byteHex (b : Nat) : List Char := [hexDigitChar (b / 16), hexDigitChar (b % 16)]

/-- The lowercase hex digest (32 characters) of a byte message. -/
def md5HexChars (msg : List Nat) : List Char :=
  let st := md5State msg
  (((leBytes 4 st.1 ++ leBytes 4 st.2.1 ++ leBytes 4 st.2.2.1 ++ leBytes 4 st.2.2.2).map byteHex)).flatten

/-- Python `str.encode()`: UTF-8 bytes of the text. -/
def utf8EncodeChar (n : Nat) : List Nat :=
  if n < 128 then [n]
  else if n < 2048 then [192 + n / 64, 128 + n % 64]
  else if n < 65536 then [224 + n / 4096, 128 + (n / 64) % 64, 128 + n % 64]
  else [240 + n / 262144, 128 + (n / 4096) % 64, 128 + (n / 64) % 64, 128 + n % 64]

def utf8Bytes (s : String) : List Nat :=
  (s.data.map (fun c => utf8EncodeChar c.toNat)).flatten

/-- `get_bg_hash(bg_text)`: the MD5 hex digest of the record's UTF-8 bytes. -/
def get_bg_hash (bg_text : String) : String :=
  (md5HexChars (utf8Bytes bg_text)).asString

/-! ## The tracker state

`processed_bgs` is a Python dict mapping an MD5 hex digest to
`{"filename": ..., "hash": ...}`.  Python dicts preserve insertion order;
the embedding is an ordered association list, with assignment replacing the
value in place for an existing key and appending for a fresh key. -/

structure TrackEntry where
  filename : String
  hash : String
  deriving Repr, DecidableEq

abbrev TrackState := List (String × TrackEntry)

def dictKeys (st : TrackState) : List String := st.map Prod.fst

def dictLookup : TrackState → String → Option TrackEntry
  | [], _ => none
  | (k, v) :: rest, key => if k = key then some v else dictLookup rest key

/-- Python dict assignment `d[k] = v`. -/
def dictSet : TrackState → String → TrackEntry → TrackState
  | [], k, v => [(k, v)]
  | (k', v') :: rest, k, v =>
      if k' = k then (k, v) :: rest else (k', v') :: dictSet rest k v

/-! ## Persistence: `save_processed_bgs` / `load_processed_bgs`

`json.dump(processed_bgs, f, indent=2)` writes the full serialization of the
dict; the file was opened with mode `'w'`, which truncates it, so after the
call the artifact's content is exactly the serialization of the state,
independent of whatever the file held before.  The strings this program
stores (hex digests and `BG_###.docx` names) contain no characters that JSON
escapes, so serialization is modelled verbatim. -/

def jsonEntryStr (k : String) (v : TrackEntry) : String :=
  "  \"" ++ k ++ "\": \x7b\n    \"filename\": \"" ++ v.filename ++
    "\",\n    \"hash\": \"" ++ v.hash ++ "\"\n  \x7d"

def serializeTracker (st : TrackState) : String :=
  if st.isEmpty then "\x7b\x7d"
  else "\x7b\n" ++ String.intercalate ",\n" (st.map fun e => jsonEntryStr e.1 e.2) ++ "\n\x7d"

/-- `save_processed_bgs`: the content of `.bg_tracker.json` after the write. -/
def save_processed_bgs (processed_bgs : TrackState) : String :=
  serializeTracker processed_bgs

/-- JSON whitespace (accepted between tokens by `json.load`). -/
def jsonWs (c : Char) : Bool := c = ' ' || c = '\t' || c = '\n' || c = '\r'

def skipWs (cs : List Char) : List Char := cs.dropWhile jsonWs

def expectLit (c : Char) (cs : List Char) : Option (List Char) :=
  match skipWs cs with
  | c' :: rest => if c' = c then some rest else none
  | [] => none

/-- A JSON string literal (no escape sequences: the tracker never stores
characters that need them; a backslash makes the parse fail, i.e. the
artifact is treated as unreadable). -/
def parseKeyString (cs : List Char) : Option (String × List Char) :=
  match skipWs cs with
  | '"' :: rest =>
      let body := rest.takeWhile (fun c => !(c = '"' || c = '\\'))
      match rest.drop body.length with
      | '"' :: r => some (body.asString, r)
      | _ => none
  | _ => none

def parseField (name : String) (cs : List Char) : Option (String × List Char) := do
  let (k, cs1) ← parseKeyString cs
  if k ≠ name then none else
  let cs2 ← expectLit ':' cs1
  parseKeyString cs2

def parseEntryVal (cs : List Char) : Option (TrackEntry × List Char) := do
  let cs0 ← expectLit '\x7b' cs
  let (fn, cs1) ← parseField "filename" cs0
  let cs2 ← expectLit ',' cs1
  let (h, cs3) ← parseField "hash" cs2
  let cs4 ← expectLit '\x7d' cs3
  some (⟨fn, h⟩, cs4)

def parseEntries (fuel : Nat) (cs : List Char) : Option (List (String × TrackEntry) × List Char) :=
  match fuel with
  | 0 => none
  | fuel + 1 => do
    let (k, cs1) ← parseKeyString cs
    let cs2 ← expectLit ':' cs1
    let (v, cs3) ← parseEntryVal cs2
    match skipWs cs3 with
    | ',' :: cs4 => (parseEntries fuel cs4).map (fun r => ((k, v) :: r.1, r.2))
    | '\x7d' :: cs4 => some ([(k, v)], cs4)
    | _ => none

/-- `json.load` for the tracker artifact's shape: a JSON object of string
keys mapping to `{"filename": ..., "hash": ...}` objects (duplicate keys
keep the last value, as in Python). -/
def parseTracker (content : String) : Option TrackState :=
  let cs := content.data
  match skipWs cs with
  | '\x7b' :: rest =>
      match skipWs rest with
      | '\x7d' :: r2 => if (skipWs r2).isEmpty then some [] else none
      | _ => do
          let (entries, r2) ← parseEntries cs.length rest
          if (skipWs r2).isEmpty then
            some (entries.foldl (fun d e => dictSet d e.1 e.2) [])
          else none
  | _ => none

/-- `load_processed_bgs`: `none` models an absent tracking file; a present
file whose content cannot be parsed is swallowed by the bare `except` and
yields the empty mapping. -/
def load_processed_bgs (artifact : Option String) : TrackState :=
  match artifact with
  | none => []
  | some content =>
      match parseTracker content with
      | some st => st
      | none => []

/-! ## The pipeline `generate_bg_documents`

`create_word_document` is the out-of-scope rendering collaborator; it is
modelled by an oracle `render : bg_text → filename → Bool` telling whether
the `doc.save` succeeds (the `except` branch of the source catches exactly a
failure of this call; on failure nothing is recorded for the record). -/

/-- `f"BG_{next_index:03d}.docx"`. -/
def mkFilename (i : Nat) : String :=
  "BG_" ++ String.mk (List.replicate (3 - (toString i).length) '0') ++ toString i ++ ".docx"

structure RunResult where
  state : TrackState
  created : List (String × String)
  failed : List (String × String)
  skipped : Nat
  saved : Option String
  deriving Repr, DecidableEq

/-- The first loop of `generate_bg_documents`: split the parsed records into
the new ones (paired with their fingerprint, in input order) and the count
of skipped duplicates.  Membership is tested against the loaded state, which
this loop never modifies. -/
def classify (st : TrackState) : List String → List (String × String) × Nat
  | [] => ([], 0)
  | bg :: rest =>
      if get_bg_hash bg ∈ dictKeys st then
        ((classify st rest).1, (classify st rest).2 + 1)
      else ((bg, get_bg_hash bg) :: (classify st rest).1, (classify st rest).2)

/-- The second loop: allocate `BG_{next_index:03d}.docx`, attempt the render,
and on success record the fingerprint and increment the counter.  On failure
the counter is *not* incremented and nothing is recorded.  Returns the final
state, the created documents and the failed attempts (both in order). -/
def renderLoop (render : String → String → Bool) :
    TrackState → Nat → List (String × String) →
      TrackState × List (String × String) × List (String × String)
  | st, _, [] => (st, [], [])
  | st, idx, (bg, h) :: rest =>
      if render bg (mkFilename idx) then
        ((renderLoop render (dictSet st h ⟨mkFilename idx, h⟩) (idx + 1) rest).1,
         (mkFilename idx, bg) ::
           (renderLoop render (dictSet st h ⟨mkFilename idx, h⟩) (idx + 1) rest).2.1,
         (renderLoop render (dictSet st h ⟨mkFilename idx, h⟩) (idx + 1) rest).2.2)
      else
        ((renderLoop render st idx rest).1,
         (renderLoop render st idx rest).2.1,
         (mkFilename idx, bg) :: (renderLoop render st idx rest).2.2)

/-- `generate_bg_documents` after segmentation: classification, rendering,
and the final `save_processed_bgs` (skipped on the two early returns, which
write nothing). -/
def generate_from_bgs (render : String → String → Bool)
    (state0 : TrackState) (bgs : List String) : RunResult :=
  if bgs.isEmpty then ⟨state0, [], [], 0, none⟩
  else if (classify state0 bgs).1.isEmpty then ⟨state0, [], [], (classify state0 bgs).2, none⟩
  else
    ⟨(renderLoop render state0 (state0.length + 1) (classify state0 bgs).1).1,
     (renderLoop render state0 (state0.length + 1) (classify state0 bgs).1).2.1,
     (renderLoop render state0 (state0.length + 1) (classify state0 bgs).1).2.2,
     (classify state0 bgs).2,
     some (save_processed_bgs
       (renderLoop render state0 (state0.length + 1) (classify state0 bgs).1).1)⟩

/-- The full run on a file content: segment, then process. -/
def generate_bg_documents (render : String → String → Bool)
    (state0 : TrackState) (content : String) : RunResult :=
  generate_from_bgs render state0 (parse_bgs_from_file content)

/-- A sequence of runs (each with its own rendering behaviour and input),
threading the committed state. -/
def runSeq : TrackState → List ((String → String → Bool) × List String) → TrackState
  | st, [] => st
  | st, (render, bgs) :: rest => runSeq (generate_from_bgs render st bgs).state rest


/-! ## Definitions used only to state the claims -/

/-- Modelled from the spec's words for the numbered-clause contract (claim
C2): a marker is a line-start-anchored run of digits followed by a period and
whitespace. -/
def specMarkerPositions (cs : List Char) : List Nat :=
  (List.range cs.length).filter (fun p => markerAt cs p && 0 < msW cs p)

/-- Modelled from the spec's words (claim C2): for each marker, all text from
just after the marker up to (but not including) the next marker or the end of
the text, trimmed. -/
def claimNumberedClauses (cs : List Char) : List (List Char) :=
  (List.range (specMarkerPositions cs).length).map (fun i =>
    pyStrip (sliceChars cs (msS cs ((specMarkerPositions cs).getD i 0))
      ((specMarkerPositions cs).getD (i + 1) cs.length)))

/-- The tracker-state invariant of claim C5: unique fingerprints, and the
`i`-th committed entry (in first-seen order) carries the `i+1`-st filename,
so filenames are strictly increasing in first-seen order. -/
def goodState (st : TrackState) : Prop :=
  (dictKeys st).Nodup ∧
    ∀ i (hi : i < st.length), (st.get ⟨i, hi⟩).2.filename = mkFilename (i + 1)

def hexAlphabet : List Char :=
  "0123456789abcdef".data

/-- The MD5 registers of a record, packaged in the finite type
`Fin M32 ^ 4` (for the pigeonhole argument of claim C9). -/
def md5Fin (s : String) : Fin M32 × Fin M32 × Fin M32 × Fin M32 :=
  (⟨(md5State (utf8Bytes s)).1 % M32, Nat.mod_lt _ (by norm_num [M32])⟩,
   ⟨(md5State (utf8Bytes s)).2.1 % M32, Nat.mod_lt _ (by norm_num [M32])⟩,
   ⟨(md5State (utf8Bytes s)).2.2.1 % M32, Nat.mod_lt _ (by norm_num [M32])⟩,
   ⟨(md5State (utf8Bytes s)).2.2.2 % M32, Nat.mod_lt _ (by norm_num [M32])⟩)

/-! ## Supporting lemmas -/

theorem dropDashes_length_le (cs : List Char) : (dropDashes cs).length ≤ cs.length :=
  (List.dropWhile_sublist _).length_le

theorem findQ_ge (cs : List Char) (fuel q : Nat) (h : q ≤ cs.length) :
    q ≤ findQ cs fuel q := by
  induction fuel generalizing q with
  | zero => simpa [findQ] using h
  | succ fuel ih =>
    simp only [findQ]
    split
    · omega
    · split
      · exact Nat.le_refl q
      · have := ih (q + 1) (by omega)
        omega

theorem findQ_le (cs : List Char) (fuel q : Nat) :
    findQ cs fuel q ≤ cs.length := by
  induction fuel generalizing q with
  | zero => simp [findQ]
  | succ fuel ih =>
    simp only [findQ]
    split
    · exact Nat.le_refl _
    · split
      · omega
      · exact ih (q + 1)

theorem findQ_lookahead (cs : List Char) (fuel q : Nat) (h : cs.length ≤ q + fuel) :
    lookaheadOk cs (findQ cs fuel q) = true := by
  induction fuel generalizing q with
  | zero => simp [findQ, lookaheadOk]
  | succ fuel ih =>
    simp only [findQ]
    split
    · simp [lookaheadOk]
    · split
      · assumption
      · exact ih (q + 1) (by omega)

theorem findQ_min (cs : List Char) (fuel q : Nat) (h : cs.length ≤ q + fuel) :
    ∀ j, q ≤ j → j < findQ cs fuel q → lookaheadOk cs j = false := by
  induction fuel generalizing q with
  | zero =>
    intro j hj1 hj2
    simp only [findQ] at hj2
    omega
  | succ fuel ih =>
    intro j hj1 hj2
    simp only [findQ] at hj2
    split at hj2
    · omega
    · split at hj2
      · omega
      · rcases Nat.eq_or_lt_of_le hj1 with heq | hlt
        · subst heq
          rename_i hnot
          simpa using hnot
        · exact ih (q + 1) (by omega) j hlt hj2

theorem runLen_le (P : Char → Bool) (cs : List Char) (p : Nat) :
    p + runLen P cs p ≤ p + (cs.length - p) := by
  have h1 : ((cs.drop p).takeWhile P).length ≤ (cs.drop p).length :=
    (List.takeWhile_sublist _).length_le
  simp only [runLen]
  simpa using h1

/-- If the whitespace run is non-empty then the capture start stays inside the
text, so the capture end exceeds it. -/
theorem msC0_lt_length (cs : List Char) (p : Nat)
    (hw : msW cs p ≠ 0) (hm : msM cs p ≠ 0) : msC0 cs p < cs.length := by
  have hle := runLen_le pyIsSpace cs (msS cs p)
  simp only [msC0, msM] at *
  split
  · omega
  · rename_i hcase
    have hs : msS cs p ≤ cs.length := by
      by_contra hgt
      have : cs.drop (msS cs p) = [] := List.drop_eq_nil_of_le (by omega)
      have : msW cs p = 0 := by simp [msW, runLen, this]
      exact hw this
    simp only [msW, msS] at *
    omega

theorem matchAt_stop_gt (cs : List Char) (p : Nat) (r : RegexMatch)
    (hm : matchAt cs p = some r) : p < r.stop := by
  unfold matchAt at hm
  split at hm
  · exact absurd hm (by simp)
  · split at hm
    · exact absurd hm (by simp)
    · split at hm
      · exact absurd hm (by simp)
      · split at hm
        · exact absurd hm (by simp)
        · split at hm
          · exact absurd hm (by simp)
          · rename_i hline hd hdot hw hm0
            have hc0 : msC0 cs p < cs.length := msC0_lt_length cs p hw hm0
            have hq := findQ_ge cs (cs.length + 1) (msC0 cs p + 1) (by omega)
            have hstop : r.stop = msStop cs p := by cases hm; rfl
            have hc0p : p < msC0 cs p := by
              simp only [msC0, msS]
              omega
            simp only [msStop] at hstop
            omega

theorem blankMatch_gt (cs : List Char) (p e : Nat) (hm : blankMatch cs p = some e) :
    p + 2 ≤ e := by
  unfold blankMatch at hm
  split at hm
  · split at hm
    · cases hm; omega
    · exact absurd hm (by simp)
  · exact absurd hm (by simp)

/-! ### `str.strip` is idempotent and produces trimmed output -/

theorem dropWhile_cases (P : Char → Bool) (l : List Char) :
    l.dropWhile P = [] ∨ ∃ b t, l.dropWhile P = b :: t ∧ P b = false := by
  induction l with
  | nil => left; rfl
  | cons c cs ih =>
    rw [List.dropWhile_cons]
    split
    · exact ih
    · right
      exact ⟨c, cs, rfl, by simp_all⟩

theorem dropWhile_idem (P : Char → Bool) (l : List Char) :
    (l.dropWhile P).dropWhile P = l.dropWhile P := by
  rcases dropWhile_cases P l with h | ⟨b, t, h, hb⟩ <;> rw [h]
  · rfl
  · rw [List.dropWhile_cons, hb]
    simp

theorem pyStrip_front (l : List Char) :
    (pyStrip l).dropWhile pyIsSpace = pyStrip l := by
  rcases dropWhile_cases pyIsSpace l with h | ⟨b, t, h, hb⟩ <;>
    simp only [pyStrip, h]
  · rfl
  · rw [List.reverse_cons, List.dropWhile_append]
    split
    · rw [List.dropWhile_cons, hb]
      simp [hb]
    · rw [List.reverse_append]
      simp only [List.reverse_cons, List.reverse_nil, List.nil_append,
        List.cons_append, List.nil_append]
      rw [List.dropWhile_cons, hb]
      simp

theorem pyStrip_back (l : List Char) :
    (pyStrip l).reverse.dropWhile pyIsSpace = (pyStrip l).reverse := by
  simp only [pyStrip, List.reverse_reverse]
  exact dropWhile_idem pyIsSpace _

theorem pyStrip_idem (l : List Char) : pyStrip (pyStrip l) = pyStrip l := by
  conv_lhs => rw [pyStrip, pyStrip_front l, pyStrip_back l, List.reverse_reverse]

theorem pyStrip_eq_nil (l : List Char) (h : ∀ c ∈ l, pyIsSpace c = true) :
    pyStrip l = [] := by
  have h1 : l.dropWhile pyIsSpace = [] := List.dropWhile_eq_nil_iff.2 h
  simp [pyStrip, h1]

/-! ### Whitespace-only inputs defeat all three heuristics -/

theorem pyIsSpace_not_digit (c : Char) (h : pyIsSpace c = true) :
    pyIsDigit c = false := by
  simp only [pyIsSpace, Bool.or_eq_true, decide_eq_true_eq] at h
  rcases h with ((((h | h) | h) | h) | h) | h <;> subst h <;> decide

theorem pyIsSpace_not_dash (c : Char) (h : pyIsSpace c = true) : ¬(c = '-') := by
  simp only [pyIsSpace, Bool.or_eq_true, decide_eq_true_eq] at h
  rcases h with ((((h | h) | h) | h) | h) | h <;> subst h <;> decide

theorem charAt_mem (cs : List Char) (p : Nat) (hp : p < cs.length) :
    charAt cs p ∈ cs := by
  simp only [charAt, List.getD_eq_getElem?_getD]
  rw [List.getElem?_eq_getElem hp]
  exact List.getElem_mem _

theorem hasDashRun_allWs (cs : List Char) (h : ∀ c ∈ cs, pyIsSpace c = true) :
    hasDashRun cs = false := by
  simp only [hasDashRun, List.any_eq_false]
  intro p hp
  simp only [List.mem_range] at hp
  have := pyIsSpace_not_dash _ (h _ (charAt_mem cs p hp))
  simp [this]

theorem runLen_eq_zero (P : Char → Bool) (cs : List Char) (p : Nat)
    (h : ∀ c ∈ cs, P c = false) : runLen P cs p = 0 := by
  unfold runLen
  cases hd : cs.drop p with
  | nil => simp
  | cons a t =>
    have ha : a ∈ cs := List.drop_subset p cs (hd ▸ List.mem_cons_self a t)
    simp [List.takeWhile_cons, h a ha]

theorem matchAt_none_of_no_digit (cs : List Char) (p : Nat)
    (h : ∀ c ∈ cs, pyIsDigit c = false) : matchAt cs p = none := by
  have hd : msD cs p = 0 := runLen_eq_zero pyIsDigit cs p h
  unfold matchAt
  rw [hd]
  simp

theorem findallAux_nil (cs : List Char) (h : ∀ q, matchAt cs q = none) :
    ∀ fuel p, findallAux cs fuel p = [] := by
  intro fuel
  induction fuel with
  | zero => intro p; rfl
  | succ fuel ih =>
    intro p
    simp only [findallAux, h p]
    split <;> simp [ih]

theorem sliceChars_subset (cs : List Char) (a b : Nat) :
    ∀ c ∈ sliceChars cs a b, c ∈ cs :=
  fun c hc => List.drop_subset a cs (List.take_subset _ _ hc)

theorem blankSplitAux_chars (cs : List Char) :
    ∀ fuel start p piece, piece ∈ blankSplitAux cs fuel start p →
      ∀ c ∈ piece, c ∈ cs := by
  intro fuel
  induction fuel with
  | zero =>
    intro start p piece hp c hc
    simp only [blankSplitAux, List.mem_singleton] at hp
    exact sliceChars_subset cs start cs.length c (hp ▸ hc)
  | succ fuel ih =>
    intro start p piece hp c hc
    simp only [blankSplitAux] at hp
    split at hp
    · simp only [List.mem_singleton] at hp
      exact sliceChars_subset cs start cs.length c (hp ▸ hc)
    · split at hp
      · rename_i e hm
        rcases List.mem_cons.1 hp with h1 | h1
        · exact sliceChars_subset cs start p c (h1 ▸ hc)
        · exact ih e e piece h1 c hc
      · exact ih start (p + 1) piece hp c hc

theorem dashSplitAux_chars :
    ∀ (fuel : Nat) (cs cur piece : List Char), piece ∈ dashSplitAux fuel cs cur →
      ∀ c ∈ piece, c ∈ cs ∨ c ∈ cur := by
  intro fuel
  induction fuel with
  | zero =>
    intro cs cur piece hp c hc
    simp only [dashSplitAux, List.mem_singleton] at hp
    right
    exact List.mem_reverse.1 (hp ▸ hc)
  | succ fuel ih =>
    intro cs cur piece hp c hc
    rw [dashSplitAux.eq_def] at hp
    split at hp
    case _ heq => exact absurd heq (by omega)
    case _ cur1 u1 u2 u3 f2 rest2 heq =>
      have hf : f2 = fuel := by omega
      subst hf
      rcases List.mem_cons.1 hp with h1 | h1
      · right; exact List.mem_reverse.1 (h1 ▸ hc)
      · rcases ih (dropDashes rest2) [] piece h1 c hc with h2 | h2
        · left
          have : c ∈ rest2 := (List.dropWhile_sublist _).subset h2
          simp [this]
        · exact absurd h2 (List.not_mem_nil c)
    case _ cur1 u1 u2 u3 f2 c0 rest2 hexcl heq =>
      have hf : f2 = fuel := by omega
      subst hf
      rcases ih rest2 (c0 :: cur1) piece hp c hc with h2 | h2
      · left; simp [h2]
      · rcases List.mem_cons.1 h2 with h3 | h3
        · left; simp [h3]
        · right; exact h3
    case _ =>
      simp only [List.mem_singleton] at hp
      subst hp
      right
      exact List.mem_reverse.1 hc

/-! ### Shape of the segmenter's output -/

theorem data_asString (l : List Char) : (List.asString l).data = l := rfl

theorem asString_ne_empty (l : List Char) (h : l ≠ []) : List.asString l ≠ "" := by
  intro he
  exact h (by simpa [List.asString] using congrArg String.data he)

theorem mem_map_asString {l : List (List Char)} {s : String}
    (h : s ∈ l.map List.asString) : ∃ piece ∈ l, s.data = piece := by
  rcases List.mem_map.1 h with ⟨piece, hmem, rfl⟩
  exact ⟨piece, hmem, rfl⟩

theorem dashPieces_trimmed (cs : List Char) :
    ∀ piece ∈ dashPieces cs, pyStrip piece = piece := by
  intro piece hp
  rcases List.mem_map.1 (List.mem_filter.1 hp).1 with ⟨x, _, rfl⟩
  exact pyStrip_idem x

theorem blankPieces_trimmed (cs : List Char) :
    ∀ piece ∈ blankPieces cs, pyStrip piece = piece := by
  intro piece hp
  rcases List.mem_map.1 (List.mem_filter.1 hp).1 with ⟨x, _, rfl⟩
  exact pyStrip_idem x

theorem dashPieces_ne_nil (cs : List Char) :
    ∀ piece ∈ dashPieces cs, piece ≠ [] := by
  intro piece hp
  have := (List.mem_filter.1 hp).2
  simpa using this

theorem blankPieces_ne_nil (cs : List Char) :
    ∀ piece ∈ blankPieces cs, piece ≠ [] := by
  intro piece hp
  have := (List.mem_filter.1 hp).2
  simpa using this

/-- The two outcomes of the dash-priority check. -/
theorem parse_bgs_tagged_cases (content : String) :
    (hasDashRun content.data = true ∧ 1 < (dashPieces content.data).length ∧
      parse_bgs_tagged content = ((dashPieces content.data).map List.asString, SegFormat.dash))
    ∨ parse_bgs_tagged content = afterDashPhase content.data := by
  unfold parse_bgs_tagged
  split
  · split
    · left
      exact ⟨by assumption, by assumption, rfl⟩
    · right; rfl
  · right; rfl

/-- The two outcomes of the remaining heuristics. -/
theorem afterDashPhase_cases (cs : List Char) :
    (1 < (numberedFindall cs).length ∧ afterDashPhase cs =
        ((((numberedFindall cs).map pyStrip).map List.asString), SegFormat.numbered))
    ∨ ((afterDashPhase cs).1 = (blankPieces cs).map List.asString ∧
        (afterDashPhase cs).2 ≠ SegFormat.numbered) := by
  unfold afterDashPhase
  split
  · left
    exact ⟨by assumption, rfl⟩
  · right
    refine ⟨rfl, ?_⟩
    split <;> simp

/-- Every record the segmenter returns is already stripped. -/
theorem parse_bgs_trimmed (content : String) :
    ∀ s ∈ parse_bgs_from_file content, pyStrip s.data = s.data := by
  intro s hs
  unfold parse_bgs_from_file at hs
  have hAfter : s ∈ (afterDashPhase content.data).1 → pyStrip s.data = s.data := by
    intro hs2
    rcases afterDashPhase_cases content.data with ⟨_, heq⟩ | ⟨heq, _⟩
    · rw [heq] at hs2
      rcases mem_map_asString hs2 with ⟨piece, hmem, hdata⟩
      rcases List.mem_map.1 hmem with ⟨x, _, rfl⟩
      rw [hdata]
      exact pyStrip_idem x
    · rw [heq] at hs2
      rcases mem_map_asString hs2 with ⟨piece, hmem, hdata⟩
      rw [hdata]
      exact blankPieces_trimmed _ piece hmem
  rcases parse_bgs_tagged_cases content with ⟨_, _, heq⟩ | heq
  · rw [heq] at hs
    rcases mem_map_asString hs with ⟨piece, hmem, hdata⟩
    rw [hdata]
    exact dashPieces_trimmed _ piece hmem
  · rw [heq] at hs
    exact hAfter hs

/-- Outside the numbered-clause branch, every returned record is non-empty. -/
theorem parse_bgs_ne_empty (content : String)
    (h2 : (parse_bgs_tagged content).2 ≠ SegFormat.numbered) :
    ∀ s ∈ parse_bgs_from_file content, s ≠ "" := by
  intro s hs
  unfold parse_bgs_from_file at hs
  rcases parse_bgs_tagged_cases content with ⟨_, _, heq⟩ | heq
  · rw [heq] at hs
    rcases mem_map_asString hs with ⟨piece, hmem, hdata⟩
    have hne := dashPieces_ne_nil _ piece hmem
    intro he
    exact hne (by rw [← hdata, he])
  · rw [heq] at hs h2
    rcases afterDashPhase_cases content.data with ⟨_, heq2⟩ | ⟨heq2, _⟩
    · rw [heq2] at h2
      exact absurd rfl h2
    · rw [heq2] at hs
      rcases mem_map_asString hs with ⟨piece, hmem, hdata⟩
      have hne := blankPieces_ne_nil _ piece hmem
      intro he
      exact hne (by rw [← hdata, he])

/-- An empty or whitespace-only input yields no records at all. -/
theorem parse_bgs_wsOnly (content : String)
    (h : ∀ c ∈ content.data, pyIsSpace c = true) :
    parse_bgs_from_file content = [] := by
  have hdash : hasDashRun content.data = false := hasDashRun_allWs _ h
  have hdig : ∀ c ∈ content.data, pyIsDigit c = false :=
    fun c hc => pyIsSpace_not_digit c (h c hc)
  have hfind : numberedFindall content.data = [] :=
    findallAux_nil content.data (fun q => matchAt_none_of_no_digit _ q hdig) _ 0
  have hblank : blankPieces content.data = [] := by
    rw [blankPieces, List.filter_eq_nil_iff]
    intro piece hmem
    rcases List.mem_map.1 hmem with ⟨x, hx, rfl⟩
    have hxall : ∀ c ∈ x, pyIsSpace c = true :=
      fun c hc => h c (blankSplitAux_chars content.data _ 0 0 x hx c hc)
    simp [pyStrip_eq_nil x hxall]
  unfold parse_bgs_from_file parse_bgs_tagged afterDashPhase
  rw [hdash, hfind, hblank]
  simp

/-! ### The numbered-clause captures never cross a line end -/

theorem matchAt_elim (cs : List Char) (p : Nat) (r : RegexMatch)
    (hm : matchAt cs p = some r) :
    r.capture = sliceChars cs (msC0 cs p) (msStop cs p) ∧ r.stop = msStop cs p ∧
      msW cs p ≠ 0 ∧ msM cs p ≠ 0 := by
  unfold matchAt at hm
  split at hm
  · exact absurd hm (by simp)
  · split at hm
    · exact absurd hm (by simp)
    · split at hm
      · exact absurd hm (by simp)
      · split at hm
        · exact absurd hm (by simp)
        · split at hm
          · exact absurd hm (by simp)
          · rename_i h1 h2 h3 h4 h5
            cases hm
            exact ⟨rfl, rfl, h4, h5⟩

theorem charAt_lt (cs : List Char) (j : Nat) (hj : j < cs.length) :
    charAt cs j = cs.get ⟨j, hj⟩ := by
  simp only [charAt, List.getD_eq_getElem?_getD]
  rw [List.getElem?_eq_getElem hj]
  simp

theorem matchAt_capture_ne_nil (cs : List Char) (p : Nat) (r : RegexMatch)
    (hm : matchAt cs p = some r) : r.capture ≠ [] := by
  obtain ⟨hcap, _, hw, hm0⟩ := matchAt_elim cs p r hm
  have hc0 : msC0 cs p < cs.length := msC0_lt_length cs p hw hm0
  have hge := findQ_ge cs (cs.length + 1) (msC0 cs p + 1) (by omega)
  simp only [msStop] at hcap
  rw [hcap]
  apply List.ne_nil_of_length_pos
  simp only [sliceChars, List.length_take, List.length_drop]
  apply lt_min <;> omega

/-- Inside a capture, every character after the first one is a position where
the lookahead failed, hence not a newline: clause bodies never extend past
the first line end. -/
theorem matchAt_capture_no_nl (cs : List Char) (p : Nat) (r : RegexMatch)
    (hm : matchAt cs p = some r) :
    ∀ i (hi : i < r.capture.length), 1 ≤ i → r.capture.get ⟨i, hi⟩ ≠ '\n' := by
  obtain ⟨hcap, _, hw, hm0⟩ := matchAt_elim cs p r hm
  have hc0 : msC0 cs p < cs.length := msC0_lt_length cs p hw hm0
  simp only [msStop] at hcap
  intro i
  rw [hcap]
  intro hi h1
  have hilen := hi
  simp only [sliceChars, List.length_take, List.length_drop, lt_min_iff] at hilen
  have hjlt : msC0 cs p + i < cs.length := by omega
  have hjstop : msC0 cs p + i < findQ cs (cs.length + 1) (msC0 cs p + 1) := by omega
  have hgetc : (sliceChars cs (msC0 cs p) (findQ cs (cs.length + 1) (msC0 cs p + 1))).get ⟨i, hi⟩
      = cs.get ⟨msC0 cs p + i, hjlt⟩ := by
    rw [List.get_eq_getElem, List.get_eq_getElem]
    simp only [sliceChars]
    rw [List.getElem_take, List.getElem_drop]
  have hla : lookaheadOk cs (msC0 cs p + i) = false := by
    apply findQ_min cs (cs.length + 1) (msC0 cs p + 1) (by omega)
    · omega
    · exact hjstop
  have hnl : ¬(charAt cs (msC0 cs p + i) = '\n') := by
    simp only [lookaheadOk, Bool.or_eq_false_iff] at hla
    have := hla.1.2
    simpa using this
  rw [hgetc]
  rw [charAt_lt cs (msC0 cs p + i) hjlt] at hnl
  exact hnl

theorem numberedFindall_mem (cs : List Char) :
    ∀ fuel p cap, cap ∈ findallAux cs fuel p →
      ∃ p0 r, matchAt cs p0 = some r ∧ cap = r.capture := by
  intro fuel
  induction fuel with
  | zero => intro p cap hc; exact absurd hc (List.not_mem_nil cap)
  | succ fuel ih =>
    intro p cap hc
    simp only [findallAux] at hc
    split at hc
    · exact absurd hc (List.not_mem_nil cap)
    · rename_i hlt
      cases hmm : matchAt cs p with
      | some r =>
        rw [hmm] at hc
        rcases List.mem_cons.1 hc with h1 | h1
        · exact ⟨p, r, hmm, h1⟩
        · exact ih r.stop cap h1
      | none =>
        rw [hmm] at hc
        exact ih (p + 1) cap hc

/-! ### The tracker dictionary -/

theorem dictKeys_append (a b : TrackState) :
    dictKeys (a ++ b) = dictKeys a ++ dictKeys b :=
  List.map_append _ a b

theorem mem_dictKeys_dictSet (st : TrackState) (k k' : String) (v : TrackEntry) :
    k' ∈ dictKeys (dictSet st k v) ↔ k' = k ∨ k' ∈ dictKeys st := by
  induction st with
  | nil => simp [dictSet, dictKeys]
  | cons e rest ih =>
    obtain ⟨k0, v0⟩ := e
    simp only [dictSet]
    split
    · rename_i h0
      subst h0
      simp only [dictKeys, List.map_cons, List.mem_cons]
      tauto
    · rename_i h0
      simp only [dictKeys, List.map_cons, List.mem_cons] at ih ⊢
      constructor
      · rintro (h1 | h1)
        · right; left; exact h1
        · rcases ih.1 h1 with h2 | h2
          · left; exact h2
          · right; right; exact h2
      · rintro (h1 | h1 | h1)
        · right; exact ih.2 (Or.inl h1)
        · left; exact h1
        · right; exact ih.2 (Or.inr h1)

theorem dictSet_fresh (st : TrackState) (k : String) (v : TrackEntry)
    (h : k ∉ dictKeys st) : dictSet st k v = st ++ [(k, v)] := by
  induction st with
  | nil => rfl
  | cons e rest ih =>
    obtain ⟨k0, v0⟩ := e
    simp only [dictKeys, List.map_cons, List.mem_cons, not_or] at h
    simp only [dictSet]
    rw [if_neg (fun hh => h.1 hh.symm)]
    rw [ih (by simpa [dictKeys] using h.2)]
    rfl

theorem dictLookup_append_left (st tail : TrackState) (k : String)
    (h : k ∈ dictKeys st) : dictLookup (st ++ tail) k = dictLookup st k := by
  induction st with
  | nil => simp [dictKeys] at h
  | cons e rest ih =>
    obtain ⟨k0, v0⟩ := e
    simp only [List.cons_append, dictLookup]
    split
    · rfl
    · rename_i h0
      apply ih
      rcases (by simpa [dictKeys] using h : k = k0 ∨ k ∈ dictKeys rest) with h1 | h1
      · exact absurd h1.symm h0
      · exact h1

/-! ### The classification loop -/

theorem classify_pairs (st : TrackState) (bgs : List String) :
    ∀ e ∈ (classify st bgs).1,
      e.2 = get_bg_hash e.1 ∧ e.1 ∈ bgs ∧ e.2 ∉ dictKeys st := by
  induction bgs with
  | nil => intro e he; exact absurd he (List.not_mem_nil e)
  | cons bg rest ih =>
    intro e he
    simp only [classify] at he
    split at he
    · obtain ⟨h1, h2, h3⟩ := ih e he
      exact ⟨h1, List.mem_cons_of_mem bg h2, h3⟩
    · rename_i hmem
      rcases List.mem_cons.1 he with h1 | h1
      · subst h1
        exact ⟨rfl, List.mem_cons_self _ _, hmem⟩
      · obtain ⟨h1, h2, h3⟩ := ih e h1
        exact ⟨h1, List.mem_cons_of_mem bg h2, h3⟩

theorem classify_snd_sublist (st : TrackState) (bgs : List String) :
    ((classify st bgs).1.map Prod.snd).Sublist (bgs.map get_bg_hash) := by
  induction bgs with
  | nil => simp [classify]
  | cons bg rest ih =>
    simp only [classify, List.map_cons]
    split
    · exact ih.cons _
    · exact ih.cons₂ _

theorem classify_complete (st : TrackState) (bgs : List String) :
    ∀ bg ∈ bgs, get_bg_hash bg ∈ dictKeys st ∨
      (bg, get_bg_hash bg) ∈ (classify st bgs).1 := by
  induction bgs with
  | nil => intro bg hbg; exact absurd hbg (List.not_mem_nil bg)
  | cons b rest ih =>
    intro bg hbg
    simp only [classify]
    rcases List.mem_cons.1 hbg with h1 | h1
    · subst h1
      split
      · left; assumption
      · right; simp
    · rcases ih bg h1 with h2 | h2
      · left; exact h2
      · right
        split
        · exact h2
        · exact List.mem_cons_of_mem _ h2

theorem classify_all_skipped (st : TrackState) (bgs : List String)
    (h : ∀ bg ∈ bgs, get_bg_hash bg ∈ dictKeys st) :
    classify st bgs = ([], bgs.length) := by
  induction bgs with
  | nil => rfl
  | cons bg rest ih =>
    have hbg := h bg (List.mem_cons_self _ _)
    have hrest := ih (fun b hb => h b (List.mem_cons_of_mem bg hb))
    simp [classify, hbg, hrest]

theorem classify_all_new (st : TrackState) (bgs : List String)
    (h : ∀ bg ∈ bgs, get_bg_hash bg ∉ dictKeys st) :
    classify st bgs = (bgs.map (fun b => (b, get_bg_hash b)), 0) := by
  induction bgs with
  | nil => rfl
  | cons bg rest ih =>
    have hbg := h bg (List.mem_cons_self _ _)
    have hrest := ih (fun b hb => h b (List.mem_cons_of_mem bg hb))
    simp [classify, hbg, hrest]

theorem classify_skip_front (st : TrackState) (l1 l2 : List String)
    (h : ∀ bg ∈ l1, get_bg_hash bg ∈ dictKeys st) :
    classify st (l1 ++ l2) =
      ((classify st l2).1, l1.length + (classify st l2).2) := by
  induction l1 with
  | nil => simp
  | cons bg rest ih =>
    have hbg := h bg (List.mem_cons_self _ _)
    have hrest := ih (fun b hb => h b (List.mem_cons_of_mem bg hb))
    simp [classify, hbg, hrest]
    omega

/-! ### The rendering loop -/

theorem renderLoop_keys_mono (render : String → String → Bool) :
    ∀ (nw : List (String × String)) (st : TrackState) (idx : Nat) (k : String),
      k ∈ dictKeys st → k ∈ dictKeys (renderLoop render st idx nw).1 := by
  intro nw
  induction nw with
  | nil => intro st idx k hk; exact hk
  | cons e rest ih =>
    intro st idx k hk
    obtain ⟨bg, h⟩ := e
    simp only [renderLoop]
    split
    · exact ih _ (idx + 1) k ((mem_dictKeys_dictSet st h k _).2 (Or.inr hk))
    · exact ih st idx k hk

theorem renderLoop_allOk_adds :
    ∀ (nw : List (String × String)) (st : TrackState) (idx : Nat) (bg h : String),
      (bg, h) ∈ nw →
      h ∈ dictKeys (renderLoop (fun _ _ => true) st idx nw).1 := by
  intro nw
  induction nw with
  | nil => intro st idx bg h hmem; exact absurd hmem (List.not_mem_nil _)
  | cons e rest ih =>
    intro st idx bg h hmem
    obtain ⟨bg0, h0⟩ := e
    simp only [renderLoop, if_true]
    rcases List.mem_cons.1 hmem with h1 | h1
    · cases h1
      exact renderLoop_keys_mono _ rest _ (idx + 1) h
        ((mem_dictKeys_dictSet st h h _).2 (Or.inl rfl))
    · exact ih _ (idx + 1) bg h h1

theorem renderLoop_allOk_failed :
    ∀ (nw : List (String × String)) (st : TrackState) (idx : Nat),
      (renderLoop (fun _ _ => true) st idx nw).2.2 = [] := by
  intro nw
  induction nw with
  | nil => intro st idx; rfl
  | cons e rest ih =>
    intro st idx
    obtain ⟨bg, h⟩ := e
    simp only [renderLoop, if_true]
    exact ih _ (idx + 1)

theorem renderLoop_allOk_created_texts :
    ∀ (nw : List (String × String)) (st : TrackState) (idx : Nat),
      (renderLoop (fun _ _ => true) st idx nw).2.1.map Prod.snd = nw.map Prod.fst := by
  intro nw
  induction nw with
  | nil => intro st idx; rfl
  | cons e rest ih =>
    intro st idx
    obtain ⟨bg, h⟩ := e
    simp only [renderLoop, if_true, List.map_cons]
    congr 1
    exact ih _ (idx + 1)

theorem renderLoop_allOk_mem :
    ∀ (nw : List (String × String)) (st : TrackState) (idx : Nat) (bg h : String),
      (bg, h) ∈ nw →
      ∃ fn, (fn, bg) ∈ (renderLoop (fun _ _ => true) st idx nw).2.1 := by
  intro nw
  induction nw with
  | nil => intro st idx bg h hmem; exact absurd hmem (List.not_mem_nil _)
  | cons e rest ih =>
    intro st idx bg h hmem
    obtain ⟨bg0, h0⟩ := e
    simp only [renderLoop, if_true]
    rcases List.mem_cons.1 hmem with h1 | h1
    · injection h1 with h1a h1b
      subst h1a
      exact ⟨mkFilename idx, List.mem_cons_self _ _⟩
    · rcases ih _ (idx + 1) bg h h1 with ⟨fn, hfn⟩
      exact ⟨fn, List.mem_cons_of_mem _ hfn⟩

/-- The rendering loop, fully characterised for fresh, duplicate-free new
records: the committed state extends the previous one by exactly the
successfully rendered pairs; created documents are numbered consecutively
from `idx`; every record is either created or failed; and a failed record's
fingerprint is absent from the committed state. -/
theorem renderLoop_master (render : String → String → Bool) :
    ∀ (nw : List (String × String)) (st : TrackState) (idx : Nat),
      (∀ e ∈ nw, e.2 = get_bg_hash e.1) →
      (∀ e ∈ nw, e.2 ∉ dictKeys st) →
      ((nw.map Prod.snd).Nodup) →
      (renderLoop render st idx nw).1
          = st ++ (renderLoop render st idx nw).2.1.map
              (fun fb => (get_bg_hash fb.2, ⟨fb.1, get_bg_hash fb.2⟩))
      ∧ (∀ k, k < (renderLoop render st idx nw).2.1.length →
          ((renderLoop render st idx nw).2.1.map Prod.fst).getD k ""
            = mkFilename (idx + k))
      ∧ (renderLoop render st idx nw).2.1.length
            + (renderLoop render st idx nw).2.2.length = nw.length
      ∧ (((renderLoop render st idx nw).2.1.map (fun fb => get_bg_hash fb.2)).Sublist
          (nw.map Prod.snd))
      ∧ (∀ fb ∈ (renderLoop render st idx nw).2.2,
          get_bg_hash fb.2 ∉ dictKeys (renderLoop render st idx nw).1
            ∧ ∃ e ∈ nw, fb.2 = e.1) := by
  intro nw
  induction nw with
  | nil =>
    intro st idx _ _ _
    refine ⟨by simp [renderLoop], ?_, rfl, by simp [renderLoop], ?_⟩
    · intro k hk
      exact absurd hk (by simp [renderLoop])
    · intro fb hfb
      exact absurd hfb (List.not_mem_nil fb)
  | cons e rest ih =>
    intro st idx hpair hfresh hnodup
    obtain ⟨bg, h⟩ := e
    have hh : h = get_bg_hash bg := hpair (bg, h) (List.mem_cons_self _ _)
    have hhst : h ∉ dictKeys st := hfresh (bg, h) (List.mem_cons_self _ _)
    have hpair' : ∀ e2 ∈ rest, e2.2 = get_bg_hash e2.1 :=
      fun e2 he2 => hpair e2 (List.mem_cons_of_mem _ he2)
    have hcons : (h :: rest.map Prod.snd).Nodup := by simpa using hnodup
    have hnodup' : (rest.map Prod.snd).Nodup := (List.nodup_cons.1 hcons).2
    have hnotin : h ∉ rest.map Prod.snd := (List.nodup_cons.1 hcons).1
    simp only [renderLoop]
    split
    · -- render succeeds: the pair is committed and the index advances
      have hfresh' : ∀ e2 ∈ rest, e2.2 ∉ dictKeys (dictSet st h ⟨mkFilename idx, h⟩) := by
        intro e2 he2
        rw [mem_dictKeys_dictSet]
        rintro (h1 | h1)
        · exact hnotin (h1 ▸ List.mem_map_of_mem Prod.snd he2)
        · exact hfresh e2 (List.mem_cons_of_mem _ he2) h1
      obtain ⟨ih1, ih2, ih3, ih4, ih5⟩ :=
        ih (dictSet st h ⟨mkFilename idx, h⟩) (idx + 1) hpair' hfresh' hnodup'
      refine ⟨?_, ?_, ?_, ?_, ?_⟩
      · rw [ih1, dictSet_fresh st h _ hhst]
        simp [hh, List.append_assoc]
      · intro k hk
        cases k with
        | zero => simp
        | succ k =>
          simp only [List.length_cons] at hk
          have h2 := ih2 k (by omega)
          simp only [List.map_cons, List.getD_cons_succ]
          rw [h2]
          congr 1
          omega
      · simp only [List.length_cons]
        omega
      · simp only [List.map_cons, ← hh]
        exact ih4.cons₂ h
      · intro fb hfb
        obtain ⟨hA, e2, he2, hB⟩ := ih5 fb hfb
        exact ⟨hA, e2, List.mem_cons_of_mem _ he2, hB⟩
    · -- render fails: nothing is committed, and the index is reused
      have hfresh' : ∀ e2 ∈ rest, e2.2 ∉ dictKeys st :=
        fun e2 he2 => hfresh e2 (List.mem_cons_of_mem _ he2)
      obtain ⟨ih1, ih2, ih3, ih4, ih5⟩ := ih st idx hpair' hfresh' hnodup'
      refine ⟨ih1, ih2, ?_, ?_, ?_⟩
      · simp only [List.length_cons]
        omega
      · simp only [List.map_cons]
        exact ih4.cons h
      · intro fb hfb
        rcases List.mem_cons.1 hfb with h1 | h1
        · subst h1
          refine ⟨?_, (bg, h), List.mem_cons_self _ _, rfl⟩
          rw [ih1, dictKeys_append]
          simp only [List.mem_append, not_or]
          constructor
          · rw [← hh]; exact hhst
          · intro hmem
            have : get_bg_hash bg ∈ (renderLoop render st idx rest).2.1.map
                (fun fb => get_bg_hash fb.2) := by
              simpa [dictKeys] using hmem
            have hin := ih4.subset this
            rw [← hh] at hin
            exact hnotin hin
        · obtain ⟨hA, e2, he2, hB⟩ := ih5 fb h1
          exact ⟨hA, e2, List.mem_cons_of_mem _ he2, hB⟩


/-! ### Whole runs -/

/-- After a run in which every render succeeds, every input record's
fingerprint is in the committed state. -/
theorem generate_keys_allOk (state0 : TrackState) (bgs : List String) :
    ∀ bg ∈ bgs,
      get_bg_hash bg ∈ dictKeys (generate_from_bgs (fun _ _ => true) state0 bgs).state := by
  intro bg hbg
  unfold generate_from_bgs
  split
  · rename_i hempty
    rw [List.isEmpty_iff] at hempty
    subst hempty
    exact absurd hbg (List.not_mem_nil bg)
  · split
    · rename_i hnew
      rw [List.isEmpty_iff] at hnew
      rcases classify_complete state0 bgs bg hbg with h1 | h1
      · simpa using h1
      · rw [hnew] at h1
        exact absurd h1 (List.not_mem_nil _)
    · rcases classify_complete state0 bgs bg hbg with h1 | h1
      · exact renderLoop_keys_mono _ _ _ _ _ h1
      · exact renderLoop_allOk_adds _ _ _ _ _ h1

theorem renderLoop_foldl (render : String → String → Bool) :
    ∀ (nw : List (String × String)) (st : TrackState) (idx : Nat),
      (∀ e ∈ nw, e.2 = get_bg_hash e.1) →
      (renderLoop render st idx nw).1
        = (renderLoop render st idx nw).2.1.foldl
            (fun s fb => dictSet s (get_bg_hash fb.2) ⟨fb.1, get_bg_hash fb.2⟩) st := by
  intro nw
  induction nw with
  | nil => intro st idx _; rfl
  | cons e rest ih =>
    intro st idx hpair
    obtain ⟨bg, h⟩ := e
    have hh : h = get_bg_hash bg := hpair (bg, h) (List.mem_cons_self _ _)
    have hpair2 : ∀ e2 ∈ rest, e2.2 = get_bg_hash e2.1 :=
      fun e2 he2 => hpair e2 (List.mem_cons_of_mem _ he2)
    simp only [renderLoop]
    split
    · rw [List.foldl_cons]
      rw [ih _ (idx + 1) hpair2]
      rw [hh]
    · exact ih st idx hpair2

/-- Any single run, from a state satisfying the tracker invariant and on
records with pairwise-distinct fingerprints, preserves the invariant and only
appends to the state. -/
theorem generate_preserves_good (render : String → String → Bool)
    (state0 : TrackState) (bgs : List String)
    (hgood : goodState state0) (hnodup : (bgs.map get_bg_hash).Nodup) :
    goodState (generate_from_bgs render state0 bgs).state ∧
      ∃ tail, (generate_from_bgs render state0 bgs).state = state0 ++ tail := by
  unfold generate_from_bgs
  split
  · exact ⟨hgood, [], by simp⟩
  · split
    · exact ⟨hgood, [], by simp⟩
    · have hpair : ∀ e ∈ (classify state0 bgs).1, e.2 = get_bg_hash e.1 :=
        fun e he => (classify_pairs _ _ e he).1
      have hfresh : ∀ e ∈ (classify state0 bgs).1, e.2 ∉ dictKeys state0 :=
        fun e he => (classify_pairs _ _ e he).2.2
      have hnodupn : ((classify state0 bgs).1.map Prod.snd).Nodup :=
        List.Nodup.sublist (classify_snd_sublist state0 bgs) hnodup
      obtain ⟨m1, m2, m3, m4, m5⟩ :=
        renderLoop_master render (classify state0 bgs).1 state0 (state0.length + 1)
          hpair hfresh hnodupn
      have htailkeys :
          dictKeys ((renderLoop render state0 (state0.length + 1)
              (classify state0 bgs).1).2.1.map
            (fun fb => (get_bg_hash fb.2, (⟨fb.1, get_bg_hash fb.2⟩ : TrackEntry))))
          = (renderLoop render state0 (state0.length + 1)
              (classify state0 bgs).1).2.1.map (fun fb => get_bg_hash fb.2) := by
        simp only [dictKeys, List.map_map]
        rfl
      constructor
      · constructor
        · rw [m1, dictKeys_append, htailkeys]
          rw [List.nodup_append]
          refine ⟨hgood.1, List.Nodup.sublist m4 hnodupn, ?_⟩
          intro k hk1 hk2
          have hin := m4.subset hk2
          rcases List.mem_map.1 hin with ⟨e, he, rfl⟩
          exact hfresh e he hk1
        · intro i
          rw [m1]
          intro hi
          by_cases hcase : i < state0.length
          · rw [List.get_eq_getElem, List.getElem_append_left hcase]
            have := hgood.2 i hcase
            rw [List.get_eq_getElem] at this
            exact this
          · push_neg at hcase
            rw [List.get_eq_getElem, List.getElem_append_right hcase]
            rw [List.getElem_map]
            simp only [List.length_append, List.length_map] at hi
            have hj : i - state0.length <
                (renderLoop render state0 (state0.length + 1)
                  (classify state0 bgs).1).2.1.length := by omega
            have h2 := m2 (i - state0.length) hj
            rw [List.getD_eq_getElem _ _ (by simpa using hj), List.getElem_map] at h2
            simp only []
            rw [h2]
            congr 1
            omega
      · exact ⟨_, m1⟩

theorem runSeq_append (st : TrackState)
    (l1 l2 : List ((String → String → Bool) × List String)) :
    runSeq st (l1 ++ l2) = runSeq (runSeq st l1) l2 := by
  induction l1 generalizing st with
  | nil => rfl
  | cons pr rest ih =>
    obtain ⟨render, bgs⟩ := pr
    simp only [List.cons_append, runSeq]
    exact ih _

/-- Iterating runs preserves the invariant and only ever appends. -/
theorem runSeq_extend (l : List ((String → String → Bool) × List String)) :
    ∀ st, goodState st → (∀ pr ∈ l, ((pr.2).map get_bg_hash).Nodup) →
      goodState (runSeq st l) ∧ ∃ tail, runSeq st l = st ++ tail := by
  induction l with
  | nil => intro st hgood _; exact ⟨hgood, [], by simp [runSeq]⟩
  | cons pr rest ih =>
    intro st hgood hnodup
    obtain ⟨render, bgs⟩ := pr
    obtain ⟨hg1, tail1, he1⟩ := generate_preserves_good render st bgs hgood
      (hnodup (render, bgs) (List.mem_cons_self _ _))
    obtain ⟨hg2, tail2, he2⟩ := ih (generate_from_bgs render st bgs).state hg1
      (fun pr2 hpr2 => hnodup pr2 (List.mem_cons_of_mem _ hpr2))
    refine ⟨by simpa [runSeq] using hg2, tail1 ++ tail2, ?_⟩
    simp only [runSeq]
    rw [he2, he1, List.append_assoc]

theorem goodState_nil : goodState [] := by
  constructor
  · simp [dictKeys]
  · intro i hi
    exact absurd hi (by simp)

/-- Closed form of a run in which everything is new and every render
succeeds. -/
theorem generate_allOk_fresh (state0 : TrackState) (bgs : List String)
    (hfresh : ∀ bg ∈ bgs, get_bg_hash bg ∉ dictKeys state0)
    (hnodup : (bgs.map get_bg_hash).Nodup) (hne : bgs ≠ []) :
    dictKeys (generate_from_bgs (fun _ _ => true) state0 bgs).state
        = dictKeys state0 ++ bgs.map get_bg_hash
      ∧ (generate_from_bgs (fun _ _ => true) state0 bgs).state.length
        = state0.length + bgs.length
      ∧ ∃ tail, (generate_from_bgs (fun _ _ => true) state0 bgs).state
        = state0 ++ tail := by
  have hcl : classify state0 bgs = (bgs.map (fun b => (b, get_bg_hash b)), 0) :=
    classify_all_new state0 bgs hfresh
  have hpair : ∀ e ∈ (classify state0 bgs).1, e.2 = get_bg_hash e.1 :=
    fun e he => (classify_pairs _ _ e he).1
  have hfresh2 : ∀ e ∈ (classify state0 bgs).1, e.2 ∉ dictKeys state0 :=
    fun e he => (classify_pairs _ _ e he).2.2
  have hnodupn : ((classify state0 bgs).1.map Prod.snd).Nodup :=
    List.Nodup.sublist (classify_snd_sublist state0 bgs) hnodup
  obtain ⟨m1, m2, m3, m4, m5⟩ :=
    renderLoop_master (fun _ _ => true) (classify state0 bgs).1 state0
      (state0.length + 1) hpair hfresh2 hnodupn
  have hsndfst : (classify state0 bgs).1.map Prod.fst = bgs := by
    rw [hcl]
    simp only [List.map_map]
    exact List.map_id bgs
  have htexts := renderLoop_allOk_created_texts (classify state0 bgs).1 state0
    (state0.length + 1)
  unfold generate_from_bgs
  rw [if_neg (by simpa using hne)]
  rw [if_neg (by rw [hcl]; simpa using hne)]
  refine ⟨?_, ?_, ⟨_, m1⟩⟩
  · simp only []
    rw [m1, dictKeys_append]
    congr 1
    rw [hsndfst] at htexts
    calc dictKeys ((renderLoop (fun _ _ => true) state0 (state0.length + 1)
            (classify state0 bgs).1).2.1.map
          (fun fb => (get_bg_hash fb.2, (⟨fb.1, get_bg_hash fb.2⟩ : TrackEntry))))
        = ((renderLoop (fun _ _ => true) state0 (state0.length + 1)
            (classify state0 bgs).1).2.1.map Prod.snd).map get_bg_hash := by
          simp only [dictKeys, List.map_map]
          rfl
      _ = bgs.map get_bg_hash := by rw [htexts]
  · simp only []
    rw [m1]
    simp only [List.length_append, List.length_map]
    have hlen : ((renderLoop (fun _ _ => true) state0 (state0.length + 1)
        (classify state0 bgs).1).2.1.map Prod.snd).length = bgs.length := by
      rw [htexts, hsndfst]
    simp only [List.length_map] at hlen
    omega


/-! ### Shape of the MD5 digest -/

theorem add32_lt (a b : Nat) : add32 a b < M32 :=
  Nat.mod_lt _ (by norm_num [M32])

theorem md5Block_lt (st : Nat × Nat × Nat × Nat) (M : List Nat) :
    (md5Block st M).1 < M32 ∧ (md5Block st M).2.1 < M32 ∧
      (md5Block st M).2.2.1 < M32 ∧ (md5Block st M).2.2.2 < M32 :=
  ⟨add32_lt _ _, add32_lt _ _, add32_lt _ _, add32_lt _ _⟩

theorem md5State_lt (msg : List Nat) :
    (md5State msg).1 < M32 ∧ (md5State msg).2.1 < M32 ∧
      (md5State msg).2.2.1 < M32 ∧ (md5State msg).2.2.2 < M32 := by
  unfold md5State
  generalize chunks64 (md5Pad msg) = blocks
  have h : ∀ (bl : List (List Nat)) (st : Nat × Nat × Nat × Nat),
      st.1 < M32 ∧ st.2.1 < M32 ∧ st.2.2.1 < M32 ∧ st.2.2.2 < M32 →
      ((bl.foldl (fun st2 blk => md5Block st2 (wordsOfBytes blk)) st).1 < M32
        ∧ (bl.foldl (fun st2 blk => md5Block st2 (wordsOfBytes blk)) st).2.1 < M32
        ∧ (bl.foldl (fun st2 blk => md5Block st2 (wordsOfBytes blk)) st).2.2.1 < M32
        ∧ (bl.foldl (fun st2 blk => md5Block st2 (wordsOfBytes blk)) st).2.2.2 < M32) := by
    intro bl
    induction bl with
    | nil => intro st hst; exact hst
    | cons b rest ih =>
      intro st _
      rw [List.foldl_cons]
      exact ih _ (md5Block_lt st (wordsOfBytes b))
  exact h blocks _ (by norm_num [M32])

theorem leBytes_length (k : Nat) : ∀ n, (leBytes k n).length = k := by
  induction k with
  | zero => intro n; rfl
  | succ k ih => intro n; simp [leBytes, ih]

theorem leBytes_lt (k : Nat) : ∀ n, ∀ b ∈ leBytes k n, b < 256 := by
  induction k with
  | zero => intro n b hb; exact absurd hb (List.not_mem_nil b)
  | succ k ih =>
    intro n b hb
    rcases List.mem_cons.1 hb with h1 | h1
    · subst h1; exact Nat.mod_lt _ (by norm_num)
    · exact ih (n / 256) b h1

theorem byteHex_flat_length (l : List Nat) : ((l.map byteHex).flatten).length = 2 * l.length := by
  induction l with
  | nil => rfl
  | cons b rest ih =>
    simp only [List.map_cons, List.flatten_cons, List.length_append, ih, byteHex]
    simp [List.length_cons]
    omega

theorem get_bg_hash_length (s : String) : (get_bg_hash s).length = 32 := by
  show (get_bg_hash s).data.length = 32
  unfold get_bg_hash md5HexChars
  rw [data_asString, byteHex_flat_length]
  simp [List.length_append, leBytes_length]

theorem hexDigitChar_mem : ∀ n, n < 16 → hexDigitChar n ∈ hexAlphabet := by
  decide

theorem byteHex_mem (b : Nat) (hb : b < 256) : ∀ c ∈ byteHex b, c ∈ hexAlphabet := by
  intro c hc
  rcases List.mem_cons.1 hc with h1 | h1
  · subst h1; exact hexDigitChar_mem _ (by omega)
  · rcases List.mem_cons.1 h1 with h2 | h2
    · subst h2; exact hexDigitChar_mem _ (by omega)
    · exact absurd h2 (List.not_mem_nil c)

theorem get_bg_hash_chars (s : String) :
    ∀ c ∈ (get_bg_hash s).data, c ∈ hexAlphabet := by
  intro c hc
  rw [get_bg_hash, data_asString] at hc
  unfold md5HexChars at hc
  rcases List.mem_flatten.1 hc with ⟨l, hl, hcl⟩
  rcases List.mem_map.1 hl with ⟨b, hb, rfl⟩
  have hb256 : b < 256 := by
    rcases List.mem_append.1 hb with h1 | h1
    · rcases List.mem_append.1 h1 with h2 | h2
      · rcases List.mem_append.1 h2 with h3 | h3
        · exact leBytes_lt 4 _ b h3
        · exact leBytes_lt 4 _ b h3
      · exact leBytes_lt 4 _ b h2
    · exact leBytes_lt 4 _ b h1
  exact byteHex_mem b hb256 c hcl

/-- Equal register states give equal hex digests. -/
theorem get_bg_hash_of_state_eq (s t : String)
    (h : md5State (utf8Bytes s) = md5State (utf8Bytes t)) :
    get_bg_hash s = get_bg_hash t := by
  unfold get_bg_hash md5HexChars
  rw [h]


/-- A run in which every record is already tracked does nothing: no renders,
no save, `skipped_count` is the total record count. -/
theorem generate_all_skipped (render : String → String → Bool)
    (st : TrackState) (bgs : List String)
    (hall : ∀ bg ∈ bgs, get_bg_hash bg ∈ dictKeys st) :
    generate_from_bgs render st bgs = ⟨st, [], [], bgs.length, none⟩ := by
  have hcl := classify_all_skipped st bgs hall
  unfold generate_from_bgs
  cases hb : bgs with
  | nil => simp
  | cons b rest =>
    rw [if_neg (by simp)]
    rw [← hb, hcl]
    simp [hb]

/-- A run on previously tracked records plus one genuinely new final record:
the new record is rendered as `BG_{count+1:03d}.docx` and committed, and
everything else is skipped. -/
theorem generate_one_new (st : TrackState) (bgs : List String) (rN : String)
    (hskip : ∀ bg ∈ bgs, get_bg_hash bg ∈ dictKeys st)
    (hnew : get_bg_hash rN ∉ dictKeys st) :
    generate_from_bgs (fun _ _ => true) st (bgs ++ [rN])
      = ⟨dictSet st (get_bg_hash rN) ⟨mkFilename (st.length + 1), get_bg_hash rN⟩,
         [(mkFilename (st.length + 1), rN)], [], bgs.length,
         some (serializeTracker
           (dictSet st (get_bg_hash rN) ⟨mkFilename (st.length + 1), get_bg_hash rN⟩))⟩ := by
  have hcl : classify st (bgs ++ [rN]) = ([(rN, get_bg_hash rN)], bgs.length) := by
    rw [classify_skip_front st bgs [rN] hskip]
    simp [classify, hnew]
  unfold generate_from_bgs
  rw [if_neg (by simp)]
  rw [hcl]
  rw [if_neg (by simp)]
  simp only [renderLoop, if_true]
  rfl



/-- A record that is present in the input but untracked is created (under
some filename) by a run in which every render succeeds. -/
theorem retry_next_run (st1 : TrackState) (bgs : List String) (b : String)
    (hb : b ∈ bgs) (hnot : get_bg_hash b ∉ dictKeys st1) :
    ∃ fn2, (fn2, b) ∈ (generate_from_bgs (fun _ _ => true) st1 bgs).created := by
  have hmem2 : (b, get_bg_hash b) ∈ (classify st1 bgs).1 := by
    rcases classify_complete st1 bgs b hb with h1 | h1
    · exact absurd h1 hnot
    · exact h1
  unfold generate_from_bgs
  rw [if_neg (by simpa using List.ne_nil_of_mem hb)]
  rw [if_neg (fun hempty =>
    absurd hmem2 (by rw [List.isEmpty_iff.1 hempty]; exact List.not_mem_nil _))]
  exact renderLoop_allOk_mem _ _ _ _ _ hmem2

/-- In any run on records with pairwise-distinct fingerprints, created
documents are numbered consecutively from `count(state) + 1`. -/
theorem run_filenames (render : String → String → Bool) (st1 : TrackState)
    (bgs : List String) (hnodup : (bgs.map get_bg_hash).Nodup) :
    ∀ k, k < (generate_from_bgs render st1 bgs).created.length →
      ((generate_from_bgs render st1 bgs).created.map Prod.fst).getD k ""
        = mkFilename (st1.length + 1 + k) := by
  have hpair2 : ∀ e ∈ (classify st1 bgs).1, e.2 = get_bg_hash e.1 :=
    fun e he => (classify_pairs _ _ e he).1
  have hfresh3 : ∀ e ∈ (classify st1 bgs).1, e.2 ∉ dictKeys st1 :=
    fun e he => (classify_pairs _ _ e he).2.2
  have hnodup2 : ((classify st1 bgs).1.map Prod.snd).Nodup :=
    List.Nodup.sublist (classify_snd_sublist _ bgs) hnodup
  obtain ⟨n1, n2, n3, n4, n5⟩ :=
    renderLoop_master render (classify st1 bgs).1 st1 (st1.length + 1)
      hpair2 hfresh3 hnodup2
  intro k
  unfold generate_from_bgs
  split
  · intro hk
    exact absurd hk (by simp)
  · split
    · intro hk
      exact absurd hk (by simp)
    · intro hk
      exact n2 k hk


/-! ## The claims -/

set_option maxRecDepth 400000 in
/-- C1 (as stated, refuted): the spec claims that whenever the text contains
a run of three or more dashes, the numbered-clause heuristic can never fire.
In the source the `return` of the dash branch is guarded by
`len(bgs) > 1`, so when dash splitting leaves at most one non-empty piece the
code falls through, and the numbered heuristic can fire on a dash-containing
input. -/
theorem c1_counterexample :
    hasDashRun ("---\n1. a\n2. b" : String).data = true ∧
      (parse_bgs_tagged "---\n1. a\n2. b").2 = SegFormat.numbered ∧
      parse_bgs_from_file "---\n1. a\n2. b" = ["a", "b"] := by
  refine ⟨by decide, by decide, by decide⟩

/-- C1 (amended): the dash heuristic is tried first, and it wins — so the
numbered heuristic does not fire — whenever dash splitting yields more than
one non-empty trimmed piece; only then is the dash result returned. -/
theorem c1_dash_priority (content : String)
    (hdash : hasDashRun content.data = true)
    (hlen : 1 < (dashPieces content.data).length) :
    parse_bgs_tagged content
      = ((dashPieces content.data).map List.asString, SegFormat.dash) := by
  unfold parse_bgs_tagged
  rw [if_pos hdash, if_pos hlen]

set_option maxRecDepth 400000 in
theorem c1_witness :
    hasDashRun ("a\n---\nb" : String).data = true ∧
      1 < (dashPieces ("a\n---\nb" : String).data).length ∧
      parse_bgs_tagged "a\n---\nb" = (["a", "b"], SegFormat.dash) :=
  ⟨by decide, by decide,
    (c1_dash_priority "a\n---\nb" (by decide) (by decide)).trans (by decide)⟩

set_option maxRecDepth 400000 in
/-- C2 (as stated, refuted): the spec claims each numbered clause body runs
up to the next marker or the end of the text.  Because the regex's `$` is in
`MULTILINE` mode, the lazy capture stops at the first line end, so a clause
body never includes its continuation lines: on `"1. a\nb\n2. c"` the spec's
reading gives `["a\nb", "c"]` but the code returns `["a", "c"]`. -/
theorem c2_counterexample :
    hasDashRun ("1. a\nb\n2. c" : String).data = false ∧
      2 ≤ (specMarkerPositions ("1. a\nb\n2. c" : String).data).length ∧
      (claimNumberedClauses ("1. a\nb\n2. c" : String).data).map List.asString
        = ["a\nb", "c"] ∧
      parse_bgs_from_file "1. a\nb\n2. c" = ["a", "c"] ∧
      parse_bgs_from_file "1. a\nb\n2. c"
        ≠ (claimNumberedClauses ("1. a\nb\n2. c" : String).data).map List.asString := by
  refine ⟨by decide, by decide, by decide, by decide, by decide⟩

/-- C2 (amended): with no dash run and more than one capture, the segmenter
returns exactly the regex captures, trimmed; every capture is non-empty and
contains no newline past its first character, i.e. a clause body extends from
after the marker's whitespace only up to the nearest line end or next marker,
not to the next marker across lines. -/
theorem c2_numbered_clauses (content : String)
    (hdash : hasDashRun content.data = false)
    (hlen : 1 < (numberedFindall content.data).length) :
    parse_bgs_from_file content
        = ((numberedFindall content.data).map pyStrip).map List.asString
      ∧ ∀ cap ∈ numberedFindall content.data, cap ≠ [] ∧
          ∀ i (hi : i < cap.length), 1 ≤ i → cap.get ⟨i, hi⟩ ≠ '\n' := by
  constructor
  · unfold parse_bgs_from_file parse_bgs_tagged afterDashPhase
    rw [if_neg (by simp [hdash]), if_pos hlen]
  · intro cap hcap
    obtain ⟨p0, r, hm, rfl⟩ := numberedFindall_mem content.data _ 0 cap hcap
    exact ⟨matchAt_capture_ne_nil _ _ _ hm, matchAt_capture_no_nl _ _ _ hm⟩

set_option maxRecDepth 400000 in
theorem c2_witness :
    hasDashRun ("1. a\nb\n2. c" : String).data = false ∧
      1 < (numberedFindall ("1. a\nb\n2. c" : String).data).length ∧
      parse_bgs_from_file "1. a\nb\n2. c" = ["a", "c"] :=
  ⟨by decide, by decide,
    ((c2_numbered_clauses "1. a\nb\n2. c" (by decide) (by decide)).1).trans (by decide)⟩

/-- C3: running the pipeline twice on an unchanged input, with all renders
succeeding on the first run, creates zero new documents on the second run,
whose skipped count equals the number of segmented records (and the committed
state is unchanged).  Holds from any starting state, and whatever the second
run's renderer would do. -/
theorem c3_idempotence (state0 : TrackState) (content : String)
    (render2 : String → String → Bool) :
    (generate_bg_documents render2
        (generate_bg_documents (fun _ _ => true) state0 content).state content).created = []
      ∧ (generate_bg_documents render2
          (generate_bg_documents (fun _ _ => true) state0 content).state content).skipped
        = (parse_bgs_from_file content).length
      ∧ (generate_bg_documents render2
          (generate_bg_documents (fun _ _ => true) state0 content).state content).state
        = (generate_bg_documents (fun _ _ => true) state0 content).state := by
  have hall := generate_keys_allOk state0 (parse_bgs_from_file content)
  unfold generate_bg_documents
  rw [generate_all_skipped render2 _ _ hall]
  exact ⟨rfl, rfl, rfl⟩


set_option maxRecDepth 1000000 in
/-- C4 (as stated, refuted): when the base input contains duplicate records,
appending one new record does not produce "one additional file": the new
record is assigned `BG_002.docx`, a filename that already exists on disk from
the first run (its document is overwritten), and two different fingerprints
end up mapped to the same filename. -/
theorem c4_counterexample :
    (generate_from_bgs (fun _ _ => true) [] ["x", "x"]).created.map Prod.fst
        = ["BG_001.docx", "BG_002.docx"]
      ∧ (generate_from_bgs (fun _ _ => true)
          (generate_from_bgs (fun _ _ => true) [] ["x", "x"]).state
          ["x", "x", "y"]).created = [("BG_002.docx", "y")]
      ∧ dictLookup (generate_from_bgs (fun _ _ => true)
            (generate_from_bgs (fun _ _ => true) [] ["x", "x"]).state
            ["x", "x", "y"]).state (get_bg_hash "x")
          = some ⟨"BG_002.docx", get_bg_hash "x"⟩
      ∧ dictLookup (generate_from_bgs (fun _ _ => true)
            (generate_from_bgs (fun _ _ => true) [] ["x", "x"]).state
            ["x", "x", "y"]).state (get_bg_hash "y")
          = some ⟨"BG_002.docx", get_bg_hash "y"⟩ := by
  refine ⟨by decide, by decide, by decide, by decide⟩

/-- C4 (amended): provided the base records have pairwise-distinct
fingerprints, running on A and then on A with one genuinely new record
appended leaves every original record's committed filename unchanged, and
creates exactly one new document, `BG_{|A|+1:03d}.docx`, for the appended
record, skipping all `|A|` original records. -/
theorem c4_superset_stability (bgsA : List String) (rNew : String)
    (hnodup : ((bgsA ++ [rNew]).map get_bg_hash).Nodup) :
    (∀ b ∈ bgsA,
        dictLookup (generate_from_bgs (fun _ _ => true)
            (generate_from_bgs (fun _ _ => true) [] bgsA).state
            (bgsA ++ [rNew])).state (get_bg_hash b)
          = dictLookup (generate_from_bgs (fun _ _ => true) [] bgsA).state
              (get_bg_hash b))
      ∧ (generate_from_bgs (fun _ _ => true)
          (generate_from_bgs (fun _ _ => true) [] bgsA).state
          (bgsA ++ [rNew])).created
        = [(mkFilename (bgsA.length + 1), rNew)]
      ∧ (generate_from_bgs (fun _ _ => true)
          (generate_from_bgs (fun _ _ => true) [] bgsA).state
          (bgsA ++ [rNew])).skipped = bgsA.length := by
  rw [List.map_append] at hnodup
  obtain ⟨hnodupA, _, hdisj⟩ := List.nodup_append.1 hnodup
  have hrnotin : get_bg_hash rNew ∉ bgsA.map get_bg_hash := by
    intro hmem
    exact hdisj hmem (by simp)
  have hkeys : dictKeys (generate_from_bgs (fun _ _ => true) [] bgsA).state
      = bgsA.map get_bg_hash := by
    by_cases hA : bgsA = []
    · subst hA; rfl
    · have := (generate_allOk_fresh [] bgsA (by simp [dictKeys]) hnodupA hA).1
      simpa [dictKeys] using this
  have hlen : (generate_from_bgs (fun _ _ => true) [] bgsA).state.length
      = bgsA.length := by
    by_cases hA : bgsA = []
    · subst hA; rfl
    · have := (generate_allOk_fresh [] bgsA (by simp [dictKeys]) hnodupA hA).2.1
      simpa using this
  have hskip : ∀ bg ∈ bgsA,
      get_bg_hash bg ∈ dictKeys (generate_from_bgs (fun _ _ => true) [] bgsA).state := by
    intro bg hbg
    rw [hkeys]
    exact List.mem_map_of_mem _ hbg
  have hnew : get_bg_hash rNew ∉
      dictKeys (generate_from_bgs (fun _ _ => true) [] bgsA).state := by
    rw [hkeys]; exact hrnotin
  rw [generate_one_new _ bgsA rNew hskip hnew]
  refine ⟨?_, by rw [hlen], by rfl⟩
  intro b hb
  simp only []
  rw [dictSet_fresh _ _ _ hnew]
  exact dictLookup_append_left _ _ _ (hskip b hb)

set_option maxRecDepth 1000000 in
theorem c4_witness :
    ((["u"] ++ ["v"]).map get_bg_hash).Nodup ∧
      (generate_from_bgs (fun _ _ => true)
          (generate_from_bgs (fun _ _ => true) [] ["u"]).state
          (["u"] ++ ["v"])).created = [(mkFilename 2, "v")] :=
  ⟨by decide, by
    have h := (c4_superset_stability ["u"] "v" (by decide)).2.1
    simpa using h⟩

set_option maxRecDepth 1000000 in
/-- C5 (as stated, refuted): with duplicate records in one input, the record's
fingerprint is first committed with filename `BG_001.docx` (after that
document is written) and then reassigned to `BG_002.docx` within the same
run, violating "an assigned output filename is never reused or reassigned
once written". -/
theorem c5_counterexample :
    (generate_from_bgs (fun _ _ => true) [] ["x", "x"]).created
        = [("BG_001.docx", "x"), ("BG_002.docx", "x")]
      ∧ dictLookup (generate_from_bgs (fun _ _ => true) [] ["x", "x"]).state
          (get_bg_hash "x") = some ⟨"BG_002.docx", get_bg_hash "x"⟩ := by
  refine ⟨by decide, by decide⟩

/-- C5 (amended): provided every run's segmented records have
pairwise-distinct fingerprints, the tracker invariant holds across every
sequence of runs from the empty state: fingerprint keys are unique, the
`i`-th entry in first-seen order carries filename `BG_{i+1:03d}.docx` (so
filenames strictly increase in first-seen order), and the state reached by
any earlier point of the sequence is preserved unchanged as an initial
segment — entries are never reassigned. -/
theorem c5_tracker_invariant
    (runs : List ((String → String → Bool) × List String))
    (h : ∀ pr ∈ runs, ((pr.2).map get_bg_hash).Nodup) :
    goodState (runSeq [] runs)
      ∧ ∀ pre post, runs = pre ++ post →
          ∃ tail, runSeq [] runs = runSeq [] pre ++ tail := by
  refine ⟨(runSeq_extend runs [] goodState_nil h).1, ?_⟩
  intro pre post hsplit
  subst hsplit
  rw [runSeq_append]
  have hgpre := (runSeq_extend pre [] goodState_nil
    (fun pr hpr => h pr (List.mem_append_left _ hpr))).1
  exact (runSeq_extend post (runSeq [] pre) hgpre
    (fun pr hpr => h pr (List.mem_append_right _ hpr))).2

set_option maxRecDepth 1000000 in
theorem c5_witness :
    (∀ pr ∈ [((fun _ _ => true : String → String → Bool), ["u", "v"])],
        ((pr.2).map get_bg_hash).Nodup) ∧
      goodState (runSeq [] [((fun _ _ => true : String → String → Bool), ["u", "v"])]) :=
  ⟨by decide, (c5_tracker_invariant _ (by decide)).1⟩


set_option maxRecDepth 1000000 in
/-- C6 (as stated, refuted): when rendering of "a" fails, the next record "b"
immediately consumes the failed record's index and is created as
`BG_001.docx`; on the next run the retried record "a" is allocated
`BG_002.docx`, not the `BG_001.docx` slot it would have had. -/
theorem c6_counterexample :
    (generate_from_bgs (fun t _ => t != "a") [] ["a", "b"]).failed
        = [("BG_001.docx", "a")]
      ∧ (generate_from_bgs (fun t _ => t != "a") [] ["a", "b"]).created
        = [("BG_001.docx", "b")]
      ∧ (generate_from_bgs (fun _ _ => true)
          (generate_from_bgs (fun t _ => t != "a") [] ["a", "b"]).state
          ["a", "b"]).created = [("BG_002.docx", "a")] := by
  refine ⟨by decide, by decide, by decide⟩

/-- C6 (amended): a render failure is caught and does not abort the batch —
every record is still attempted; the failed record's fingerprint is not
committed; on the next (fully succeeding) run every failed record is retried
and created, with the new run's filenames numbered consecutively from
`committed-count + 1` (so a failed record receives its original would-be slot
only if no later record succeeded after it). -/
theorem c6_render_failure (state0 : TrackState) (bgs : List String)
    (render1 : String → String → Bool)
    (hfresh : ∀ bg ∈ bgs, get_bg_hash bg ∉ dictKeys state0)
    (hnodup : (bgs.map get_bg_hash).Nodup) :
    (generate_from_bgs render1 state0 bgs).created.length
        + (generate_from_bgs render1 state0 bgs).failed.length = bgs.length
      ∧ (∀ fb ∈ (generate_from_bgs render1 state0 bgs).failed,
          get_bg_hash fb.2 ∉ dictKeys (generate_from_bgs render1 state0 bgs).state)
      ∧ (∀ fb ∈ (generate_from_bgs render1 state0 bgs).failed,
          ∃ fn2, (fn2, fb.2) ∈ (generate_from_bgs (fun _ _ => true)
            (generate_from_bgs render1 state0 bgs).state bgs).created)
      ∧ (∀ k, k < (generate_from_bgs (fun _ _ => true)
            (generate_from_bgs render1 state0 bgs).state bgs).created.length →
          ((generate_from_bgs (fun _ _ => true)
              (generate_from_bgs render1 state0 bgs).state bgs).created.map
            Prod.fst).getD k ""
            = mkFilename
                ((generate_from_bgs render1 state0 bgs).state.length + 1 + k)) := by
  by_cases hbgs : bgs = []
  · subst hbgs
    refine ⟨rfl, ?_, ?_, ?_⟩
    · intro fb hfb; exact absurd hfb (List.not_mem_nil fb)
    · intro fb hfb; exact absurd hfb (List.not_mem_nil fb)
    · intro k hk
      exact absurd hk (by simp [generate_from_bgs])
  · have hcl : classify state0 bgs = (bgs.map (fun b => (b, get_bg_hash b)), 0) :=
      classify_all_new state0 bgs hfresh
    have hpair : ∀ e ∈ (classify state0 bgs).1, e.2 = get_bg_hash e.1 :=
      fun e he => (classify_pairs _ _ e he).1
    have hfresh2 : ∀ e ∈ (classify state0 bgs).1, e.2 ∉ dictKeys state0 :=
      fun e he => (classify_pairs _ _ e he).2.2
    have hnodupn : ((classify state0 bgs).1.map Prod.snd).Nodup :=
      List.Nodup.sublist (classify_snd_sublist state0 bgs) hnodup
    obtain ⟨m1, m2, m3, m4, m5⟩ :=
      renderLoop_master render1 (classify state0 bgs).1 state0 (state0.length + 1)
        hpair hfresh2 hnodupn
    have hr1 : generate_from_bgs render1 state0 bgs
        = ⟨(renderLoop render1 state0 (state0.length + 1) (classify state0 bgs).1).1,
           (renderLoop render1 state0 (state0.length + 1) (classify state0 bgs).1).2.1,
           (renderLoop render1 state0 (state0.length + 1) (classify state0 bgs).1).2.2,
           (classify state0 bgs).2,
           some (save_processed_bgs
             (renderLoop render1 state0 (state0.length + 1) (classify state0 bgs).1).1)⟩ := by
      unfold generate_from_bgs
      rw [if_neg (by simpa using hbgs)]
      rw [if_neg (by rw [hcl]; simpa using hbgs)]
    refine ⟨?_, ?_, ?_, ?_⟩
    · rw [hr1]
      simp only []
      rw [m3, hcl]
      simp
    · intro fb hfb
      rw [hr1] at hfb
      have hstate : (generate_from_bgs render1 state0 bgs).state
          = (renderLoop render1 state0 (state0.length + 1) (classify state0 bgs).1).1 := by
        rw [hr1]
      rw [hstate]
      exact (m5 fb hfb).1
    · intro fb hfb
      rw [hr1] at hfb
      obtain ⟨hnotk, e, he, heq⟩ := m5 fb hfb
      have hbmem : fb.2 ∈ bgs := by
        rw [heq]
        exact (classify_pairs state0 bgs e he).2.1
      have hstate : (generate_from_bgs render1 state0 bgs).state
          = (renderLoop render1 state0 (state0.length + 1) (classify state0 bgs).1).1 := by
        rw [hr1]
      rw [hstate]
      exact retry_next_run _ bgs fb.2 hbmem hnotk
    · have hstate : (generate_from_bgs render1 state0 bgs).state
          = (renderLoop render1 state0 (state0.length + 1) (classify state0 bgs).1).1 := by
        rw [hr1]
      rw [hstate]
      exact run_filenames (fun _ _ => true) _ bgs hnodup

set_option maxRecDepth 1000000 in
theorem c6_witness :
    (∀ bg ∈ ["a", "b"], get_bg_hash bg ∉ dictKeys ([] : TrackState)) ∧
      ((["a", "b"].map get_bg_hash).Nodup) ∧
      (generate_from_bgs (fun t _ => t != "a") [] ["a", "b"]).created.length
        + (generate_from_bgs (fun t _ => t != "a") [] ["a", "b"]).failed.length = 2 :=
  ⟨by decide, by decide,
    (c6_render_failure [] ["a", "b"] (fun t _ => t != "a") (by decide) (by decide)).1⟩

/-- C7: the commit step merges into the loaded state exactly the
successfully rendered (fingerprint → filename) pairs — failures are absent —
and the persisted artifact, when written at all, is the full serialization of
the committed state: a whole-file rewrite that replaces any prior content,
not an incremental append (the write is skipped entirely on the two early
returns, which change nothing). -/
theorem c7_commit (render : String → String → Bool) (state0 : TrackState)
    (bgs : List String) :
    (generate_from_bgs render state0 bgs).state
        = (generate_from_bgs render state0 bgs).created.foldl
            (fun s fb => dictSet s (get_bg_hash fb.2) ⟨fb.1, get_bg_hash fb.2⟩) state0
      ∧ ((generate_from_bgs render state0 bgs).saved = none →
          (generate_from_bgs render state0 bgs).created = []
            ∧ (generate_from_bgs render state0 bgs).state = state0)
      ∧ ((generate_from_bgs render state0 bgs).saved = none ∨
          (generate_from_bgs render state0 bgs).saved
            = some (serializeTracker (generate_from_bgs render state0 bgs).state)) := by
  unfold generate_from_bgs
  split
  · exact ⟨rfl, fun _ => ⟨rfl, rfl⟩, Or.inl rfl⟩
  · split
    · exact ⟨rfl, fun _ => ⟨rfl, rfl⟩, Or.inl rfl⟩
    · refine ⟨?_, ?_, Or.inr rfl⟩
      · exact renderLoop_foldl render _ state0 _
          (fun e he => (classify_pairs _ _ e he).1)
      · intro hnone
        exact absurd hnone (by simp)

set_option maxRecDepth 1000000 in
theorem c7_witness :
    (generate_from_bgs (fun _ _ => true) [] ["w"]).saved
      = some (serializeTracker (generate_from_bgs (fun _ _ => true) [] ["w"]).state) := by
  rcases (c7_commit (fun _ _ => true) [] ["w"]).2.2 with h | h
  · exact absurd h (by decide)
  · exact h


/-- C8: loading the tracker state is total and returns the empty mapping both
when no artifact exists and when the artifact's content does not parse
(the bare `except` swallows the failure); a readable artifact yields exactly
the parsed mapping. -/
theorem c8_load_tracker :
    load_processed_bgs none = []
      ∧ (∀ content, parseTracker content = none →
          load_processed_bgs (some content) = [])
      ∧ (∀ content st, parseTracker content = some st →
          load_processed_bgs (some content) = st) := by
  refine ⟨rfl, ?_, ?_⟩
  · intro c h
    simp only [load_processed_bgs, h]
  · intro c st h
    simp only [load_processed_bgs, h]

theorem c8_witness :
    parseTracker "garbage" = none ∧ load_processed_bgs (some "garbage") = [] :=
  ⟨by decide, c8_load_tracker.2.1 "garbage" (by decide)⟩

set_option maxRecDepth 1000000 in
/-- The parser accepts what `save_processed_bgs` writes (a concrete
round-trip, showing the corrupt-input case above is not vacuous). -/
theorem parseTracker_roundtrip_example :
    parseTracker (save_processed_bgs
        [("9dd4e461268c8034f5c8564e155c67a6",
          ⟨"BG_001.docx", "9dd4e461268c8034f5c8564e155c67a6"⟩)])
      = some [("9dd4e461268c8034f5c8564e155c67a6",
          ⟨"BG_001.docx", "9dd4e461268c8034f5c8564e155c67a6"⟩)] := by
  decide

set_option maxRecDepth 1000000 in
/-- C9 (as stated, refuted): the fingerprint is a 128-bit MD5 digest, so by
the pigeonhole principle there exist two distinct record strings with the
same fingerprint; such records would be treated as identical, so
"two distinct record strings are never treated as identical" is not a theorem
of the code — it is an assumption about the inputs. -/
theorem c9_counterexample :
    ∃ s t : String, s ≠ t ∧ get_bg_hash s = get_bg_hash t := by
  obtain ⟨n, m, hne, heq⟩ := Finite.exists_ne_map_eq_of_infinite
    (fun n => md5Fin (String.mk (List.replicate n 'a')))
  refine ⟨String.mk (List.replicate n 'a'), String.mk (List.replicate m 'a'), ?_, ?_⟩
  · intro hcon
    apply hne
    have := congrArg (fun s => s.data.length) hcon
    simpa using this
  · apply get_bg_hash_of_state_eq
    obtain ⟨ha1, hb1, hc1, hd1⟩ := md5State_lt (utf8Bytes (String.mk (List.replicate n 'a')))
    obtain ⟨ha2, hb2, hc2, hd2⟩ := md5State_lt (utf8Bytes (String.mk (List.replicate m 'a')))
    simp only [md5Fin, Prod.mk.injEq, Fin.mk.injEq] at heq
    obtain ⟨h1, h2, h3, h4⟩ := heq
    rw [Nat.mod_eq_of_lt ha1, Nat.mod_eq_of_lt ha2] at h1
    rw [Nat.mod_eq_of_lt hb1, Nat.mod_eq_of_lt hb2] at h2
    rw [Nat.mod_eq_of_lt hc1, Nat.mod_eq_of_lt hc2] at h3
    rw [Nat.mod_eq_of_lt hd1, Nat.mod_eq_of_lt hd2] at h4
    rw [Prod.ext_iff, Prod.ext_iff, Prod.ext_iff]
    exact ⟨h1, h2, h3, h4⟩

/-- C9 (amended): the fingerprint is the 32-character lowercase hex MD5
digest of the record's UTF-8 bytes, and it is deterministic, so records with
identical text are always treated as the same logical entity; freedom from
collisions among distinct records is an assumption, not a property of the
code. -/
theorem c9_fingerprint (s t : String) :
    (s = t → get_bg_hash s = get_bg_hash t)
      ∧ (get_bg_hash s).length = 32
      ∧ ∀ c ∈ (get_bg_hash s).data, c ∈ hexAlphabet :=
  ⟨fun h => h ▸ rfl, get_bg_hash_length s, get_bg_hash_chars s⟩

set_option maxRecDepth 1000000 in
theorem c9_witness :
    get_bg_hash "r" = get_bg_hash "r" ∧ (get_bg_hash "r").length = 32 :=
  ⟨(c9_fingerprint "r" "r").1 rfl, (c9_fingerprint "r" "r").2.1⟩

set_option maxRecDepth 1000000 in
/-- C10 (as stated, refuted): the numbered-clause branch maps `str.strip`
over the captures without filtering empties, so a capture consisting of
whitespace produces an empty record: on `"1. a\n2.  "` the segmenter returns
`["a", ""]`, which contains the empty string. -/
theorem c10_counterexample :
    parse_bgs_from_file "1. a\n2.  " = ["a", ""] ∧
      "" ∈ parse_bgs_from_file "1. a\n2.  " := by
  refine ⟨by decide, by decide⟩

/-- C10 (amended): every record the segmenter returns is trimmed (stripping
it again changes nothing), and an empty or whitespace-only input yields an
empty result; non-emptiness of the returned records holds on the dash and
blank-line branches, but not on the numbered-clause branch. -/
theorem c10_output_shape (content : String) :
    (∀ s ∈ parse_bgs_from_file content, pyStrip s.data = s.data)
      ∧ ((parse_bgs_tagged content).2 ≠ SegFormat.numbered →
          ∀ s ∈ parse_bgs_from_file content, s ≠ "")
      ∧ ((∀ c ∈ content.data, pyIsSpace c = true) →
          parse_bgs_from_file content = []) :=
  ⟨parse_bgs_trimmed content, parse_bgs_ne_empty content, parse_bgs_wsOnly content⟩

theorem c10_witness :
    (∀ c ∈ ("  \n " : String).data, pyIsSpace c = true) ∧
      parse_bgs_from_file "  \n " = [] :=
  ⟨by decide, (c10_output_shape "  \n ").2.2 (by decide)⟩

end BG




